import Mathlib

set_option maxRecDepth 100000

/-!
Verification of the `algebra` term-rewriting engine (`src/expression.cpp`,
`src/parser.cpp`) against its natural-language specification.

The development is a shallow embedding of the C++ source:

* The expression model `std::variant<empty, op, function, constant, value,
  symbol, placeholder>` becomes the inductive type `Expr`.  The header file of
  the revision under study is not part of the provided sources (the bundled
  `expression.h` belongs to an older revision that predates the
  `function`/`comma`/`equality` operator kinds used by `expression.cpp`), so
  the enumeration orders and the numeric value of the base placeholder
  enumerator are modelled from the specification, as marked in the doc
  comments below.
* `value` is IEEE `double` in the source.  It is embedded as the type `Value`:
  finite doubles are idealized as exact rationals (double arithmetic is
  sign-exact for the comparisons the code performs, rounding is immaterial to
  every claim below), while infinities and NaN, which `compare` and the
  numeric-reduction step branch on, are represented explicitly.
  `std::pow` has no exact embedding into rationals and no claim depends on its
  values, so every definition that needs it is parameterized by an
  uninterpreted `vpow : Value → Value → Value`.
* `std::map`/`std::set` keyed by expressions are embedded as lists with
  membership decided by the comparator-induced equivalence
  `¬(a < b) ∧ ¬(b < a)` (exactly the equivalence `std::set`/`std::map` use);
  for comparators that are strict weak orders — in particular on all
  expressions whose value leaves are finite — this coincides with standard
  library behaviour.  Placeholder-keyed maps/sets become sorted lists of tags.
* `assert` is modelled as a no-op (release, `NDEBUG`, semantics).
* `match_r` can fail to terminate in C++ when a binding maps a placeholder to
  an expression cycle (mutually bound placeholders).  The embedding therefore
  carries an explicit fuel that strictly dominates the C++ recursion depth on
  every terminating input actually used below; fuel exhaustion returns the
  failure result.
-/

namespace Algebra

/-- Operator kinds of the expression tree.  The cpp file uses the kinds
`function, comma, equality, sum, difference, negative, product, quotient,
reciprocal, exponent, logarithm, derivative`; the header declaring the enum is
not among the sources.  Modelled from the spec: OpKind enumerates (design
level) equality, comma, sum, difference, negative, product, quotient,
reciprocal, exponent, logarithm, function-call, derivative, integral,
differential; `kindIdx` fixes that order for `compare`.  No claim below
depends on the particular order, only on its injectivity. -/
inductive OpType where
  | equality
  | comma
  | sum
  | difference
  | negative
  | product
  | quotient
  | reciprocal
  | exponent
  | logarithm
  | function
  | derivative
  | integral
  | differential
deriving DecidableEq, Repr

/-- `enum class function`: built-in unary function tags (spec §3 order). -/
inductive Fn where
  | exponent
  | logarithm
  | sine
  | cosine
  | tangent
  | secant
  | cosecant
  | cotangent
deriving DecidableEq, Repr

/-- `enum class constant`: the claims-era `to_string` handles exactly
`undefined, pi, e, i` (spec §3 ConstantTag). -/
inductive ConstKind where
  | undefined
  | pi
  | e
  | i
deriving DecidableEq, Repr

/-- Shallow embedding of IEEE `double`: finite values as exact rationals plus
the two infinities and NaN.  Only the sign behaviour of arithmetic matters to
the embedded code, and on finite doubles sign (and equality-with-zero) of
`a - b` is exact, so the idealization is faithful for every comparison the
source performs. -/
inductive Value where
  | fin (q : ℚ)
  | inf (neg : Bool)
  | nan
deriving DecidableEq, Repr

/-- Exact rational addition, spelled through `Rat.divInt` (the library's
`Rat.add` is `@[irreducible]`, which blocks definitional evaluation; this
form is proved equal to `+` in `qadd_eq` below). -/
def qadd (a b : ℚ) : ℚ := Rat.divInt (a.num * b.den + b.num * a.den) (a.den * b.den)

/-- Exact rational subtraction through `Rat.divInt` (see `qadd`). -/
def qsub (a b : ℚ) : ℚ := Rat.divInt (a.num * b.den - b.num * a.den) (a.den * b.den)

/-- Exact rational multiplication through `Rat.divInt` (see `qadd`). -/
def qmul (a b : ℚ) : ℚ := Rat.divInt (a.num * b.num) (a.den * b.den)

/-- Exact rational division through `Rat.divInt` (see `qadd`). -/
def qdiv (a b : ℚ) : ℚ := Rat.divInt (a.num * b.den) (a.den * b.num)

/-- IEEE addition (sign-idealized on finite operands). -/
def vadd : Value → Value → Value
  | .fin a, .fin b => .fin (qadd a b)
  | .fin _, .inf s => .inf s
  | .inf s, .fin _ => .inf s
  | .inf s, .inf t => if s = t then .inf s else .nan
  | _, _ => .nan

/-- IEEE subtraction (sign-idealized on finite operands). -/
def vsub : Value → Value → Value
  | .fin a, .fin b => .fin (qsub a b)
  | .fin _, .inf s => .inf (!s)
  | .inf s, .fin _ => .inf s
  | .inf s, .inf t => if s = t then .nan else .inf s
  | _, _ => .nan

/-- IEEE multiplication (sign-idealized on finite operands). -/
def vmul : Value → Value → Value
  | .fin a, .fin b => .fin (qmul a b)
  | .fin a, .inf s => if a = 0 then .nan else .inf (xor (Rat.blt a 0) s)
  | .inf s, .fin b => if b = 0 then .nan else .inf (xor (Rat.blt b 0) s)
  | .inf s, .inf t => .inf (xor s t)
  | _, _ => .nan

/-- IEEE division (sign-idealized on finite operands; the model has no
negative zero, division of a nonzero finite by zero takes the numerator's
sign). -/
def vdiv : Value → Value → Value
  | .fin a, .fin b =>
      if b = 0 then (if a = 0 then .nan else .inf (Rat.blt a 0)) else .fin (qdiv a b)
  | .fin _, .inf _ => .fin 0
  | .inf s, .fin b => .inf (xor (Rat.blt b 0) s)
  | _, _ => .nan

/-- IEEE `<` on doubles: any comparison with NaN is false.  (`Rat.blt` is
definitionally the `<` of `ℚ`.) -/
def vltB : Value → Value → Bool
  | .fin a, .fin b => Rat.blt a b
  | .fin _, .inf s => !s
  | .inf s, .fin _ => s
  | .inf s, .inf t => s && !t
  | _, _ => false

/-- IEEE `==` on doubles: NaN compares unequal to everything, equal
infinities compare equal. -/
def veqB : Value → Value → Bool
  | .fin a, .fin b => a = b
  | .inf s, .inf t => s = t
  | _, _ => false

/-- IEEE `>=` on doubles (used to state claim C6 as written): true iff
`b < a` or `a == b`; false whenever either side is NaN. -/
def vgeB (a b : Value) : Bool := vltB b a || veqB a b

/-- `class expression : std::variant<empty, op, function, constant, value,
symbol, placeholder>`.  `op` is the operator node `{op_type type; ptr lhs;
ptr rhs;}` — a unary operator stores `empty` in the unused operand, exactly
as the default-constructed `ptr<expression>` does in C++.  Symbols are
`std::string`, embedded as `List Char`.  Placeholder tags are naturals; the
header's enumerators are not in the sources, the tag arithmetic is modelled
from the spec (see `placeholderX`). -/
inductive Expr where
  | empty
  | op (type : OpType) (lhs rhs : Expr)
  | fn (f : Fn)
  | const (c : ConstKind)
  | value (v : Value)
  | symbol (s : List Char)
  | placeholder (p : Nat)
deriving DecidableEq, Repr

/-- Modelled from the spec: the numeric value of the `placeholder::x`
enumerator used by `convert_placeholders`.  The header of this revision is
missing from the sources; the spec's bootstrap mapping
"'a'→placeholder[0], …, 'z'→placeholder[25]" together with the printer
contract "placeholders as single letters 'a'+index" forces the base
enumerator to be 0. -/
def placeholderX : Nat := 0

/-- `std::variant::index()` of each alternative, in the declaration order of
the spec's §3 data-model table (Empty, Operator, Function, Constant, Value,
Symbol, Placeholder).  Only injectivity matters to any claim. -/
def exprIdx : Expr → Nat
  | .empty => 0
  | .op _ _ _ => 1
  | .fn _ => 2
  | .const _ => 3
  | .value _ => 4
  | .symbol _ => 5
  | .placeholder _ => 6

/-- Enum value of an operator kind (see `OpType`). -/
def kindIdx : OpType → Nat
  | .equality => 0
  | .comma => 1
  | .sum => 2
  | .difference => 3
  | .negative => 4
  | .product => 5
  | .quotient => 6
  | .reciprocal => 7
  | .exponent => 8
  | .logarithm => 9
  | .function => 10
  | .derivative => 11
  | .integral => 12
  | .differential => 13

/-- Enum value of a function tag. -/
def fnIdx : Fn → Nat
  | .exponent => 0
  | .logarithm => 1
  | .sine => 2
  | .cosine => 3
  | .tangent => 4
  | .secant => 5
  | .cosecant => 6
  | .cotangent => 7

/-- Enum value of a constant tag. -/
def constIdx : ConstKind → Nat
  | .undefined => 0
  | .pi => 1
  | .e => 2
  | .i => 3

/-- `std::string::compare`, sign-normalized: lexicographic by character code,
then by length.  The C++ return value's magnitude is never inspected, only
its sign. -/
def scmp : List Char → List Char → Int
  | [], [] => 0
  | [], _ :: _ => -1
  | _ :: _, [] => 1
  | a :: as, b :: bs =>
      if a.toNat < b.toNat then -1
      else if b.toNat < a.toNat then 1
      else scmp as bs

/-- `compare(expression const&, expression const&)` (expression.cpp
401-468): variant index first, then the variant-specific comparison; operator
nodes compare kind, then lhs recursively, then rhs; values compare by the
sign of the double subtraction `lhs - rhs`; enum-tag alternatives return the
raw integer difference of their tags. -/
def cmpE : Expr → Expr → Int
  | a, b =>
    let d : Int := (exprIdx a : Int) - (exprIdx b : Int)
    if d < 0 then -1
    else if d = 0 then
      match a, b with
      | .empty, .empty => 0
      | .op lk ll lr, .op rk rl rr =>
          if kindIdx lk < kindIdx rk then -1
          else if kindIdx lk = kindIdx rk then
            let d2 := cmpE ll rl
            if d2 < 0 then -1
            else if d2 = 0 then cmpE lr rr
            else 1
          else 1
      | .fn lf, .fn rf => (fnIdx lf : Int) - (fnIdx rf : Int)
      | .const lc, .const rc => (constIdx lc : Int) - (constIdx rc : Int)
      | .value lv, .value rv =>
          let dv := vsub lv rv
          if vltB dv (.fin 0) then -1
          else if veqB dv (.fin 0) then 0
          else 1
      | .symbol ls, .symbol rs => scmp ls rs
      | .placeholder lp, .placeholder rp => (lp : Int) - (rp : Int)
      | _, _ => 0
    else 1

/-- `expression_cmp`: the strict comparator `compare(lhs, rhs) < 0` used by
every `std::set`/`std::map` over expressions. -/
def lessE (a b : Expr) : Bool := cmpE a b < 0

/-- The equivalence induced by a standard-library comparator:
`¬(a < b) ∧ ¬(b < a)`.  `std::set::insert`/`find` and `std::map` use exactly
this relation to decide key equality. -/
def eqvE (a b : Expr) : Bool := !lessE a b && !lessE b a

/-- `std::set<expression, expression_cmp>` membership: some element of the
set is comparator-equivalent to `x`. -/
def containsEqv (l : List Expr) (x : Expr) : Bool := l.any fun y => eqvE y x

/-- `std::set<expression, expression_cmp>::insert`: keep the comparator-sorted
order, drop the new element when an equivalent one is present. -/
def setInsert (x : Expr) : List Expr → List Expr
  | [] => [x]
  | y :: ys =>
      if lessE x y then x :: y :: ys
      else if lessE y x then y :: setInsert x ys
      else y :: ys

/-- `op_count` (expression.cpp 316-324): number of operator nodes. -/
def op_count : Expr → Nat
  | .op _ l r => 1 + op_count l + op_count r
  | _ => 0

/-- Number of nodes of an expression tree (used only to size the fuel of the
matcher, which is not structurally recursive in C++). -/
def sizeE : Expr → Nat
  | .op _ l r => 1 + sizeE l + sizeE r
  | _ => 1

/-- Sorted insertion into a `std::set<placeholder>` (sorted list of tags). -/
def phInsert (p : Nat) : List Nat → List Nat
  | [] => [p]
  | q :: qs =>
      if p < q then p :: q :: qs
      else if q < p then q :: phInsert p qs
      else q :: qs

/-- `placeholder_count_r` (expression.cpp 327-336): collect the placeholder
tags of an expression into a set. -/
def placeholder_count_r : Expr → List Nat → List Nat
  | .op _ l r, s => placeholder_count_r r (placeholder_count_r l s)
  | .placeholder p, s => phInsert p s
  | _, s => s

/-- `enumerate_placeholders` (expression.cpp 340-345). -/
def enumerate_placeholders (e : Expr) : List Nat := placeholder_count_r e []

/-- Union of two placeholder sets (the two `merged_placeholders.insert`
range-inserts of expression.cpp 535-536). -/
def phUnion (s t : List Nat) : List Nat := t.foldl (fun a p => phInsert p a) s

/-- `std::map<placeholder, expression>`: association list; keys stay unique
because the matcher only ever inserts a key it failed to find. -/
abbrev Binding := List (Nat × Expr)

/-- `std::map::find` on a binding. -/
def blookup (b : Binding) (p : Nat) : Option Expr :=
  match b with
  | [] => none
  | (q, e) :: rest => if q = p then some e else blookup rest p

/-- `std::map::operator[] = rhs` for a key known to be absent. -/
def binsert (b : Binding) (p : Nat) (e : Expr) : Binding := (p, e) :: b

/-- `match_placeholders` (expression.cpp 348-359): the binding's key set
equals the given placeholder set (size check plus membership checks). -/
def match_placeholders (m : Binding) (s : List Nat) : Bool :=
  (m.length = s.length) && s.all fun p => (blookup m p).isSome

/-- `match_r` (expression.cpp 246-312), in state-passing form: the C++
in-out binding parameter becomes the second component of the result, which on
failure is exactly the caller's map (the C++ code mutates only local copies
on every failing path, committing on success).  The C++ recursion through
bound placeholders is not structurally decreasing and can diverge on cyclic
bindings, so the embedding consumes one unit of fuel per call; exhaustion
yields the failure result and is unreachable for the fuel budgets used
below. -/
def match_r : Nat → Expr → Expr → Binding → Bool × Binding
  | 0, _, _, pl => (false, pl)
  | Nat.succ fuel, lhs, rhs, pl =>
    match lhs, rhs with
    -- compare placeholders
    | .placeholder lp, .placeholder rp => (lp = rp, pl)
    | .placeholder lp, _ =>
        match blookup pl lp with
        | some bound =>
            let r := match_r fuel bound rhs pl
            if r.1 then (true, r.2) else (false, pl)
        | none => (true, binsert pl lp rhs)
    | _, .placeholder _ => match_r fuel rhs lhs pl
    -- compare values
    | .value lv, .value rv => (veqB lv rv, pl)
    -- compare constants
    | .const lc, .const rc => (lc = rc, pl)
    -- compare symbols
    | .symbol ls, .symbol rs => (ls = rs, pl)
    -- compare ops
    | .op lk ll lr, .op rk rl rr =>
        if lk = rk then
          let r1 := match_r fuel ll rl pl
          if r1.1 then
            let r2 := match_r fuel lr rr r1.2
            if r2.1 then (true, r2.2) else (false, pl)
          else (false, pl)
        else (false, pl)
    -- compare functions
    | .fn lf, .fn rf => (lf = rf, pl)
    -- compare empty
    | .empty, .empty => (true, pl)
    -- no match
    | _, _ => (false, pl)

/-- `match(lhs, rhs, placeholders)` (expression.cpp 362-370): run `match_r`
on a copy, commit the copy on success, keep the caller's map on failure. -/
def matchW (fuel : Nat) (lhs rhs : Expr) (pl : Binding) : Bool × Binding :=
  let r := match_r fuel lhs rhs pl
  if r.1 then (true, r.2) else (false, pl)

/-- `apply_transform_r` (expression.cpp 383-398).  The `source` parameter is
carried but never used, as in C++.  `placeholders.at` on a missing key throws
in C++; the embedding returns `empty` there (unreachable from
`enumerate_transforms`, which checks the binding's domain first). -/
def apply_transform_r (source : Expr) (target : Expr) (pl : Binding) : Expr :=
  match target with
  | .placeholder p => (blookup pl p).getD .empty
  | .op k l r => .op k (apply_transform_r source l pl) (apply_transform_r source r pl)
  | t => t

/-- `convert_placeholders` (expression.cpp 481-493): rebuild the tree,
replacing each symbol leaf — asserted by the source to be a single lowercase
letter — by `placeholder(placeholder::x + (s[0] - 'a'))`.  The empty-string
default of `headD` is arbitrary; the source asserts it away. -/
def convert_placeholders : Expr → Expr
  | .op k l r => .op k (convert_placeholders l) (convert_placeholders r)
  | .symbol s => .placeholder (placeholderX + ((s.headD 'a').toNat - 97))
  | e => e

/-!
## The parser (`src/parser.cpp`)

The rule table is bootstrapped by parsing the fixed rule strings, so the
tokenizer and the recursive-descent parser are embedded as well.  Error
results (`parser::error`) carry only diagnostic payload (offending token and
message) that never influences control flow; the embedding collapses them to
a unit error.  The C++ functions advance a `token const*&` cursor; the
embedding passes the remaining token list explicitly and returns it next to
the parse result.  The parser's recursions decrease the token cursor but not
structurally, so they carry fuel; the top-level `parse` supplies a budget
that strictly dominates the C++ recursion depth for its input.
-/

/-- A token: the span of characters it covers. -/
def Tok := List Char
deriving DecidableEq

/-- `'0' <= c && c <= '9'` (ASCII 48..57). -/
def isDigitC (c : Char) : Bool := 48 ≤ c.toNat && c.toNat ≤ 57

/-- lowercase or uppercase letter (ASCII 97..122 / 65..90). -/
def isAlphaC (c : Char) : Bool :=
  (97 ≤ c.toNat && c.toNat ≤ 122) || (65 ≤ c.toNat && c.toNat ≤ 90)

/-- single-character operator tokens of `parser::tokenize`. -/
def isOpC (c : Char) : Bool :=
  c = '=' || c = '+' || c = '-' || c = '*' || c = '/' || c = '^' ||
  c = '(' || c = ')' || c = ','

/-- The numeric-literal span loop of `tokenize`: consume digits and at most
one dot (the duplicate-dot error branch inside the loop is dead code — the
loop condition already excludes a second dot). -/
def numSpan : List Char → Bool → List Char × List Char
  | [], _ => ([], [])
  | c :: cs, hasDot =>
      if isDigitC c then
        let r := numSpan cs hasDot
        (c :: r.1, r.2)
      else if !hasDot && c = '.' then
        let r := numSpan cs true
        (c :: r.1, r.2)
      else ([], c :: cs)

/-- The identifier span loop of `tokenize`: consume letters. -/
def alphaSpan : List Char → List Char × List Char
  | [] => ([], [])
  | c :: cs =>
      if isAlphaC c then
        let r := alphaSpan cs
        (c :: r.1, r.2)
      else ([], c :: cs)

/-- `parser::tokenize` (parser.cpp 67-125).  Whitespace (every character code
≤ 32, mirroring `*str <= ' '` with the end-of-string test folded into the
list recursion) is skipped; operator characters are single tokens; numeric
and identifier spans are maximal.  Any other character is the "invalid
character" error.  Fueled (one unit per character examined). -/
def tokenize : Nat → List Char → Except Unit (List Tok)
  | 0, _ => .error ()
  | _ + 1, [] => .ok []
  | fuel + 1, c :: cs =>
      if c.toNat ≤ 32 then tokenize fuel cs
      else if isOpC c then
        match tokenize fuel cs with
        | .ok ts => .ok ([c] :: ts)
        | .error u => .error u
      else if isDigitC c || c = '.' then
        let sp := numSpan cs (c = '.')
        match tokenize fuel sp.2 with
        | .ok ts => .ok ((c :: sp.1) :: ts)
        | .error u => .error u
      else if isAlphaC c then
        let sp := alphaSpan cs
        match tokenize fuel sp.2 with
        | .ok ts => .ok ((c :: sp.1) :: ts)
        | .error u => .error u
      else .error ()

/-- `std::atof` on a numeric token (digits with at most one dot). -/
def digitsToNat (l : List Char) : Nat := l.foldl (fun n c => n * 10 + (c.toNat - 48)) 0

/-- `std::atof` on a numeric token: integer part plus fractional part,
assembled as one exact quotient. -/
def atofQ (cs : List Char) : ℚ :=
  let ip := cs.takeWhile fun c => c ≠ '.'
  let fp := (cs.dropWhile fun c => c ≠ '.').drop 1
  Rat.divInt (Int.ofNat (digitsToNat ip * 10 ^ fp.length + digitsToNat fp))
    (Int.ofNat (10 ^ fp.length))

/-- `op_precedence` (parser.cpp 132-144). -/
def op_precedence : OpType → Nat
  | .equality => 16
  | .comma => 17
  | .sum => 6
  | .difference => 6
  | .product => 5
  | .quotient => 5
  | .exponent => 4
  | _ => 0

/-- `INT_MAX`, the default binding precedence of `parse_expression`. -/
def intMax : Nat := 2147483647

/-- `parse_operator` (parser.cpp 147-179). -/
def parse_operator : List Tok → Except Unit (OpType × List Tok)
  | [] => .error ()
  | t :: ts =>
      if t = [')'] then .error ()
      else if t = ['='] then .ok (.equality, ts)
      else if t = [','] then .ok (.comma, ts)
      else if t = ['+'] then .ok (.sum, ts)
      else if t = ['-'] then .ok (.difference, ts)
      else if t = ['*'] then .ok (.product, ts)
      else if t = ['/'] then .ok (.quotient, ts)
      else if t = ['^'] then .ok (.exponent, ts)
      else .error ()

/-- `count_arguments` (parser.cpp 218-227). -/
def count_arguments : Expr → Nat
  | .op .comma _ r => 1 + count_arguments r
  | _ => 1

mutual

/-- `parse_expression` (parser.cpp 401-436): parse an operand, then the
operator loop (split into `parse_expression_loop` below to mirror the C++
`while`). -/
def parse_expression : Nat → List Tok → Nat → Except Unit (Expr × List Tok)
  | 0, _, _ => .error ()
  | fuel + 1, ts, prec =>
      match parse_operand fuel ts with
      | .error u => .error u
      | .ok (lhs, ts1) => parse_expression_loop fuel lhs ts1 prec

/-- The `while (tokens < end && *tokens != ')')` loop of `parse_expression`:
peek an operator; if the caller's precedence binds at least as tightly (and
is not the comma precedence) restore the cursor and stop, otherwise parse the
right operand at the operator's precedence and fold it into `lhs`. -/
def parse_expression_loop : Nat → Expr → List Tok → Nat → Except Unit (Expr × List Tok)
  | 0, _, _, _ => .error ()
  | fuel + 1, lhs, ts, prec =>
      match ts with
      | [] => .ok (lhs, ts)
      | t :: _ =>
          if t = [')'] then .ok (lhs, ts)
          else
            match parse_operator ts with
            | .error u => .error u
            | .ok (k, ts2) =>
                let lp := op_precedence k
                if prec ≤ lp && prec ≠ op_precedence .comma then .ok (lhs, ts)
                else
                  match parse_expression fuel ts2 lp with
                  | .error u => .error u
                  | .ok (rhs, ts3) => parse_expression_loop fuel (.op k lhs rhs) ts3 prec

/-- `parse_operand` (parser.cpp 341-398): optional leading negation, explicit
operand, then the implicit-multiplication probe (restoring the cursor when the
probe errors or yields a value) or the function-call check, then negation
applied last. -/
def parse_operand : Nat → List Tok → Except Unit (Expr × List Tok)
  | 0, _ => .error ()
  | fuel + 1, ts =>
      match ts with
      | [] => .error ()
      | t :: rest =>
          if t = [')'] then .error ()
          else
            let isNeg := t = ['-']
            let ts1 := if isNeg then rest else ts
            match parse_operand_explicit fuel ts1 with
            | .error u => .error u
            | .ok (out0, ts2) =>
                let step : Except Unit (Expr × List Tok) :=
                  match out0 with
                  | .value _ | .const _ =>
                      -- implicit multiplication, e.g. `3x`; do not parse `3-x` as `(3)(-x)`
                      (match ts2 with
                       | [] => .ok (out0, ts2)
                       | n :: _ =>
                           if n = ['-'] then .ok (out0, ts2)
                           else
                             match parse_expression fuel ts2 (op_precedence .product) with
                             | .error _ => .ok (out0, ts2)
                             | .ok (next, ts3) =>
                                 match next with
                                 | .value _ => .ok (out0, ts2)
                                 | _ => .ok (.op .product out0 next, ts3))
                  | .op .derivative _ _ | .symbol _ =>
                      -- function call, e.g. `f(x)`
                      (match ts2 with
                       | [] => .ok (out0, ts2)
                       | n :: _ =>
                           if n = ['('] then
                             match parse_operand fuel ts2 with
                             | .error u => .error u
                             | .ok (args, ts3) => .ok (.op .function out0 args, ts3)
                           else .ok (out0, ts2))
                  | _ => .ok (out0, ts2)
                match step with
                | .error u => .error u
                | .ok (out, ts4) =>
                    if isNeg then .ok (.op .negative out .empty, ts4) else .ok (out, ts4)

/-- `parse_operand_explicit` (parser.cpp 244-338): parenthesized expression,
built-in functions, constants, numeric values, `d/dx` derivatives, symbols. -/
def parse_operand_explicit : Nat → List Tok → Except Unit (Expr × List Tok)
  | 0, _ => .error ()
  | fuel + 1, ts =>
      match ts with
      | [] => .error ()
      | t :: rest =>
          if t = [')'] then .error ()
          else if t = ['('] then
            match parse_expression fuel rest intMax with
            | .error u => .error u
            | .ok (e, ts1) =>
                match ts1 with
                | [] => .error ()
                | c :: ts2 => if c = [')'] then .ok (e, ts2) else .error ()
          else if t = ['e', 'x', 'p'] then parse_function fuel rest .exponent 1
          else if t = ['l', 'n'] then parse_function fuel rest .logarithm 1
          else if t = ['l', 'o', 'g'] then parse_binary_function fuel rest .logarithm
          else if t = ['s', 'i', 'n'] then parse_function fuel rest .sine 1
          else if t = ['c', 'o', 's'] then parse_function fuel rest .cosine 1
          else if t = ['t', 'a', 'n'] then parse_function fuel rest .tangent 1
          else if t = ['s', 'e', 'c'] then parse_function fuel rest .secant 1
          else if t = ['c', 's', 'c'] then parse_function fuel rest .cosecant 1
          else if t = ['c', 'o', 't'] then parse_function fuel rest .cotangent 1
          else if t = ['p', 'i'] then .ok (.const .pi, rest)
          else if t = ['e'] then .ok (.const .e, rest)
          else if t = ['i'] then .ok (.const .i, rest)
          else if isDigitC (t.headD ' ') || t.headD ' ' = '.' then
            .ok (.value (.fin (atofQ t)), rest)
          else
            match ts with
            | t0 :: t1 :: t2 :: rest3 =>
                if t0 = ['d'] && t1 = ['/'] && t2.headD ' ' = 'd' then
                  match parse_operand fuel rest3 with
                  | .error u => .error u
                  | .ok (e, ts1) => .ok (.op .derivative (.symbol (t2.drop 1)) e, ts1)
                else if isAlphaC (t0.headD ' ') then .ok (.symbol t0, (t1 :: t2 :: rest3))
                else .error ()
            | t0 :: rest1 =>
                if isAlphaC (t0.headD ' ') then .ok (.symbol t0, rest1)
                else .error ()
            | [] => .error ()

/-- `parse_function` (parser.cpp 230-241): parse the argument operand, check
its comma-arity, and build the `function` operator node whose lhs is the
function tag. -/
def parse_function (fuel : Nat) (ts : List Tok) (f : Fn) (numArgs : Nat) :
    Except Unit (Expr × List Tok) :=
  match fuel with
  | 0 => .error ()
  | fuel + 1 =>
      match parse_operand fuel ts with
      | .error u => .error u
      | .ok (arg, ts1) =>
          if count_arguments arg ≠ numArgs then .error ()
          else .ok (.op .function (.fn f) arg, ts1)

/-- `parse_binary_function` (parser.cpp 182-215): expect `(`, parse a full
expression which must be a comma node, expect `)`, and spread the comma's
operands over the binary operator. -/
def parse_binary_function (fuel : Nat) (ts : List Tok) (k : OpType) :
    Except Unit (Expr × List Tok) :=
  match fuel with
  | 0 => .error ()
  | fuel + 1 =>
      match ts with
      | [] => .error ()
      | t :: rest =>
          if t ≠ ['('] then .error ()
          else
            match parse_expression fuel rest intMax with
            | .error u => .error u
            | .ok (e, ts1) =>
                match e with
                | .op .comma l r =>
                    match ts1 with
                    | [] => .error ()
                    | c :: ts2 => if c = [')'] then .ok (.op k l r, ts2) else .error ()
                | _ => .error ()

end

/-- `algebra::parse` (parser.cpp 456-472): tokenize, parse a full expression,
and return the default-constructed (empty) expression on any error.  The fuel
budgets strictly dominate the cursor-driven C++ recursion for every input the
development evaluates. -/
def parse (cs : List Char) : Expr :=
  match tokenize (cs.length + 1) cs with
  | .error _ => .empty
  | .ok toks =>
      match parse_expression ((toks.length + 2) * (toks.length + 2) + 8) toks intMax with
      | .error _ => .empty
      | .ok (e, _) => e

/-- `transform_strings` (expression.cpp 14-177): the fixed rule strings, in
source order (the chain rule is commented out in the source). -/
def transform_strings : List String :=
  [ "(x + y) + z = x + (y + z)"
  , "(x * y) * z = x * (y * z)"
  , "x + y = y + x"
  , "x * y = y * x"
  , "a * (x + y) = a * x + a * y"
  , "x + 0 = x"
  , "x * 1 = x"
  , "x * 0 = 0"
  , "x + (-x) = 0"
  , "-x = 0 - x"
  , "x + (-y) = x - y"
  , "x * (x^-1) = 1"
  , "1/x = 1 / x"
  , "x * (1/y) = x / y"
  , "x + x = x * 2"
  , "x * x = x ^ 2"
  , "log(x * y, b) = log(x, b) + log(y, b)"
  , "log(x, b) = log(x, y) / log(b, y)"
  , "b ^ log(x, b) = x"
  , "b ^ x * b ^ y = b ^ (x + y)"
  , "(b ^ x) ^ y = b ^ (x * y)"
  , "(x * y) ^ n = (x ^ n) * (y ^ n)"
  , "x ^ 0 = 1"
  , "x ^ 1 = x"
  , "log(1, x) = 0"
  , "log(x, e) = ln(x)"
  , "log(x, y) = ln(x) / ln(y)"
  , "e ^ x = exp(x)"
  , "a ^ x = exp(x * ln(a))"
  , "i ^ 2 = -1"
  , "e ^ (i * x) = cos(x) + i * sin(x)"
  , "sin(0) = 0"
  , "cos(0) = 1"
  , "sin(pi/2) = 1"
  , "cos(pi/2) = 0"
  , "tan(x) = sin(x) / cos(x)"
  , "sec(x) = 1 / cos(x)"
  , "csc(x) = 1 / sin(x)"
  , "cot(x) = 1 / tan(x)"
  , "1 = sin(x) ^ 2 + cos(x) ^ 2"
  , "sin(-x) = -sin(x)"
  , "cos(-x) = cos(x)"
  , "tan(-x) = -tan(x)"
  , "sin(pi/2 - x) = cos(x)"
  , "cos(pi/2 - x) = sin(x)"
  , "tan(pi/2 - x) = cot(x)"
  , "sin(pi - x) = sin(x)"
  , "cos(pi - x) = -cos(x)"
  , "tan(pi - x) = -tan(x)"
  , "sin(2pi - x) = sin(-x)"
  , "cos(2pi - x) = cos(-x)"
  , "tan(2pi - x) = tan(-x)"
  , "sin(x + y) = sin(x) * cos(y) + cos(x) * sin(y)"
  , "sin(x - y) = sin(x) * cos(y) - cos(x) * sin(y)"
  , "cos(x + y) = cos(x) * cos(y) - sin(x) * sin(y)"
  , "cos(x - y) = cos(x) * cos(y) + sin(x) * sin(y)"
  , "sin(2pi + x) = sin(x)"
  , "cos(2pi + x) = cos(x)"
  , "tan(2pi + x) = tan(x)"
  , "sin(2x) = 2 * sin(x) * cos(x)"
  , "cos(2x) = cos(x) ^ 2 - sin(x) ^ 2"
  , "cos(2x) = 2 * cos(x) ^ 2 - 1"
  , "sin(3x) = 3 * sin(x) - 4 * sin(x) ^ 3"
  , "cos(3x) = 4 * cos(x) ^ 3 - 3 * cos(x)"
  , "sin(x) ^ 2 = (1 - cos(2x)) / 2"
  , "cos(x) ^ 2 = (1 + cos(2x)) / 2"
  , "d/dx(f + g) = d/dx(f) + d/dx(g)"
  , "d/dx(f - g) = d/dx(f) - d/dx(g)"
  , "d/dx(f * g) = d/dx(f) * g + f * d/dx(g)"
  , "d/dx(f / g) = (d/dx(f) * g - f * d/dx(g)) / g^2"
  , "d/dx(x) = 1"
  , "d/dx(x ^ r) = r * x ^ (r - 1)"
  , "d/dx(ln(x)) = 1/x"
  , "d/dx(ln(f)) = d/dx(f) / x"
  , "d/dx(exp(x)) = exp(x)"
  , "d/dx(exp(f)) = d/dx(f) * exp(f)"
  , "d/dx(sin(x)) = cos(x)"
  , "d/dx(cos(x)) = -sin(x)"
  , "d/dx(tan(x)) = sec(x) ^ 2"
  , "d/dx(sin(f)) = d/dx(f) * cos(f)"
  , "d/dx(cos(f)) = d/dx(f) * -sin(f)"
  , "d/dx(tan(f)) = d/dx(f) * sec(f) ^ 2"
  ]

/-- `struct transform` (expression.h): a source/target pattern pair. -/
structure Transform where
  source : Expr
  target : Expr
deriving DecidableEq, Repr

/-- `resolve_transforms` (expression.cpp 496-513): parse each rule string —
asserted to yield an equality node — and convert the symbols of both sides to
placeholders.  The assert is modelled by skipping non-equality parses; the
lemma `transforms_length` below confirms that no rule is skipped. -/
def transforms : List Transform :=
  transform_strings.filterMap fun str =>
    match parse str.data with
    | .op .equality l r => some ⟨convert_placeholders l, convert_placeholders r⟩
    | _ => none

/-!
## Neighbor enumeration and the search engine (`expression.cpp` 516-670)
-/

/-- Fuel budget for the matcher calls made by `enumerate_transforms`.  The
C++ `match_r` has no fuel; starting from an empty binding its recursion depth
is bounded by the product of the operand sizes (each pass through a bound
placeholder descends strictly into the concrete side), which this budget
strictly dominates. -/
def matchFuel (e pat : Expr) : Nat := (sizeE e + 1) * (sizeE pat + 1) + 1

/-- One iteration of the rule loop of `enumerate_transforms` (expression.cpp
531-568) on expression `e`: compute both placeholder sets and their union;
with a fresh binding, try the source→target direction when the source's
placeholder set equals the union, then the target→source direction when the
target's placeholder set equals the union.  Note that the C++ declares
`expr_placeholders` once per rule: the target-direction match starts from
whatever the source-direction `match` committed (the wrapper commits exactly
when it succeeds, even if the subsequent `match_placeholders` test fails). -/
def rule_inserts (e : Expr) (tr : Transform) (out : List Expr) : List Expr :=
  let sp := enumerate_placeholders tr.source
  let tp := enumerate_placeholders tr.target
  let mp := phUnion sp tp
  let b0 : Binding := []
  let step1 : List Expr × Binding :=
    if sp.length = mp.length then
      let m := matchW (matchFuel e tr.source) e tr.source b0
      if m.1 && match_placeholders m.2 mp then
        (setInsert (apply_transform_r e tr.target m.2) out, m.2)
      else (out, m.2)
    else (out, b0)
  if tp.length = mp.length then
    let m2 := matchW (matchFuel e tr.target) e tr.target step1.2
    if m2.1 && match_placeholders m2.2 mp then
      setInsert (apply_transform_r e tr.source m2.2) step1.1
    else step1.1
  else step1.1

/-- The numeric-reduction switch of `enumerate_transforms` (expression.cpp
583-600), applied when both children of the operator node are values:
sum/product/quotient/exponent fold to the computed scalar; difference folds
to the scalar unless `lhs < rhs`, in which case the positive difference is
wrapped in a reciprocal node.  `vp` is the uninterpreted `std::pow`. -/
def numeric_inserts (vp : Value → Value → Value) (k : OpType) (a b : Value)
    (out : List Expr) : List Expr :=
  match k with
  | .sum => setInsert (.value (vadd a b)) out
  | .difference =>
      if vltB a b then setInsert (.op .reciprocal (.value (vsub b a)) .empty) out
      else setInsert (.value (vsub a b)) out
  | .product => setInsert (.value (vmul a b)) out
  | .quotient => setInsert (.value (vdiv a b)) out
  | .exponent => setInsert (.value (vp a b)) out
  | _ => out

/-- The guard of the numeric-reduction step (expression.cpp 583): the switch
runs only when both children of the operator node hold values. -/
def numeric_step (vp : Value → Value → Value) (k : OpType) :
    Expr → Expr → List Expr → List Expr
  | .value a, .value b, out => numeric_inserts vp k a b out
  | _, _, out => out

/-- `enumerate_transforms` (expression.cpp 516-605): apply every rule in both
directions at the top, recurse into both children of an operator node (each
transformed child is re-wrapped with the untouched sibling), then fold a
value-value operator node numerically.  The process-wide memoization cache
(lines 518, 524-529, 603) only replays the set computed for a
comparator-equal key and is semantically transparent, so it is not modelled;
`resolve_transforms` (line 522) is the lazy initialization of `transforms`. -/
def enumerate_transforms (vp : Value → Value → Value) : Expr → List Expr
  | .op k l r =>
      let out0 := transforms.foldl (fun out tr => rule_inserts (.op k l r) tr out) []
      let out1 := (enumerate_transforms vp l).foldl (fun out t => setInsert (.op k t r) out) out0
      let out2 := (enumerate_transforms vp r).foldl (fun out t => setInsert (.op k l t) out) out1
      numeric_step vp k l r out2
  | e => transforms.foldl (fun out tr => rule_inserts e tr out) []

/-- The state of the `simplify` search loop (expression.cpp 626-670).
`closed` is the `std::set` in insertion order, `queue` the priority queue's
contents in insertion order, `trace` the parent map in insertion order, and
`iters` the number of loop iterations executed. -/
structure SState where
  closed : List Expr
  queue : List Expr
  trace : List (Expr × Expr)
  best : Expr
  bestOps : Nat
  iters : Nat
deriving Repr

/-- `std::map<expression, expression, expression_cmp>::find` on the trace. -/
def traceFind (trace : List (Expr × Expr)) (x : Expr) : Option Expr :=
  match trace with
  | [] => none
  | (k, p) :: rest => if eqvE k x then some p else traceFind rest x

/-- Pop from the priority queue ordered by `expression_queue_cmp`
(`op_count lhs > op_count rhs`, a min-heap on operation count): remove an
element of minimal operation count.  `std::priority_queue`'s tie order among
equal-cost elements is heap-layout specific (the spec: "ties are broken
arbitrarily"); the model removes the earliest-inserted minimum.  No claim
depends on the tie order. -/
def popMin (q : List Expr) : Option (Expr × List Expr) :=
  match q with
  | [] => none
  | x :: xs =>
      match popMin xs with
      | none => some (x, [])
      | some (m, rest) =>
          if op_count x ≤ op_count m then some (x, xs) else some (m, x :: rest)

/-- The expansion step of one `simplify` iteration (expression.cpp 658-665):
each neighbor not yet in the closed set is enqueued, closed, and traced to
its parent `next`. -/
def expand (next : Expr) (st : SState) (ns : List Expr) : SState :=
  ns.foldl (fun s n =>
    if containsEqv s.closed n then s
    else { s with queue := s.queue ++ [n]
                , closed := s.closed ++ [n]
                , trace := s.trace ++ [(n, next)] }) st

/-- The body of the `simplify` search loop, one recursive call per iteration
(the iteration budget is the fuel, so the loop structure is the recursion):
pop the cheapest frontier element, account for the best, stop on the two
budget tests, otherwise expand its neighbors, enqueueing and tracing each one
that is not yet closed. -/
def simplify_loop (vp : Value → Value → Value) (max_operations : Nat) :
    Nat → SState → SState
  | 0, st => st
  | fuel + 1, st =>
      match popMin st.queue with
      | none => st
      | some (next, queue') =>
          let st1 : SState := { st with queue := queue', iters := st.iters + 1 }
          let next_ops := op_count next
          let st2 : SState :=
            if next_ops < st1.bestOps then { st1 with best := next, bestOps := next_ops }
            else st1
          -- exceeded maximum complexity
          if max_operations ≤ next_ops then st2
          -- can't get any simpler than zero
          else if next_ops = 0 then st2
          else
            simplify_loop vp max_operations fuel
              (expand next st2 (enumerate_transforms vp next))

/-- Initial state of `simplify`: the input is enqueued and closed, the best
tracker starts at the input. -/
def simplify_init (e : Expr) : SState :=
  { closed := [e], queue := [e], trace := [], best := e, bestOps := op_count e, iters := 0 }

/-- The full run of `simplify` (expression.cpp 626-670) exposing the final
search state. -/
def simplify_run (vp : Value → Value → Value) (e : Expr)
    (max_operations max_iterations : Nat) : SState :=
  simplify_loop vp max_operations max_iterations (simplify_init e)

/-- `simplify` (expression.cpp 626-670): the returned expression.  The
`traceback` call before the return only prints the derivation path. -/
def simplify (vp : Value → Value → Value) (e : Expr)
    (max_operations max_iterations : Nat) : Expr :=
  (simplify_run vp e max_operations max_iterations).best

/-- Reachability by finitely many neighbor (`enumerate_transforms`) steps. -/
inductive Reach (vp : Value → Value → Value) : Expr → Expr → Prop
  | refl (e : Expr) : Reach vp e e
  | step {a b c : Expr} : Reach vp a b → c ∈ enumerate_transforms vp b → Reach vp a c

/-- Following trace (parent) links from `x` terminates at the root: either
lookup fails and `x` is the root, or the parent chain reaches the root in
finitely many steps (the derivation of this predicate is the terminating run
of `traceback`, expression.cpp 616-623). -/
inductive ReachesRoot (trace : List (Expr × Expr)) (root : Expr) : Expr → Prop
  | here {x : Expr} : traceFind trace x = none → x = root → ReachesRoot trace root x
  | step {x p : Expr} : traceFind trace x = some p → ReachesRoot trace root p →
      ReachesRoot trace root x

/-- No placeholder leaf occurs in the expression. -/
def noPh : Expr → Bool
  | .op _ l r => noPh l && noPh r
  | .placeholder _ => false
  | _ => true

/-- Every value leaf of the expression is finite (neither infinite nor NaN). -/
def finiteVals : Expr → Bool
  | .op _ l r => finiteVals l && finiteVals r
  | .value (.fin _) => true
  | .value _ => false
  | _ => true

/-- No value leaf of the expression is NaN. -/
def nanFree : Expr → Bool
  | .op _ l r => nanFree l && nanFree r
  | .value .nan => false
  | _ => true

/-- Total node count of the expressions in a binding's range (sizes the
matcher fuel needed to re-traverse bound expressions). -/
def bindingWeight : Binding → Nat
  | [] => 0
  | kv :: rest => sizeE kv.2 + bindingWeight rest

/-- Every symbol leaf is a single lowercase letter (the shape
`convert_placeholders` asserts for rule strings). -/
def symbolsSingleLower : Expr → Bool
  | .op _ l r => symbolsSingleLower l && symbolsSingleLower r
  | .symbol [c] => 97 ≤ c.toNat && c.toNat ≤ 122
  | .symbol _ => false
  | _ => true

/-!
## Helper lemmas
-/

/-- Sanity check: every one of the 82 rule strings parses to an equality node
and contributes a rule, exactly as `resolve_transforms` asserts. -/
theorem transforms_length : transforms.length = transform_strings.length := by decide

/-- `Rat.blt` is the Bool form of `<` on `ℚ`. -/
theorem blt_true_iff {a b : ℚ} : Rat.blt a b = true ↔ a < b := Iff.rfl

/-- `Rat.blt` is the Bool form of `<` on `ℚ` (negative form). -/
theorem blt_false_iff {a b : ℚ} : Rat.blt a b = false ↔ ¬a < b := by
  rw [← Bool.not_eq_true, not_iff_not]
  exact blt_true_iff

/-- `qsub` is exact rational subtraction. -/
theorem qsub_eq (a b : ℚ) : qsub a b = a - b := by
  have ha : (a.den : ℤ) ≠ 0 := by exact_mod_cast a.den_ne_zero
  have hb : (b.den : ℤ) ≠ 0 := by exact_mod_cast b.den_ne_zero
  rw [qsub]
  conv_rhs => rw [← Rat.num_divInt_den a, ← Rat.num_divInt_den b]
  rw [Rat.divInt_sub_divInt _ _ ha hb]

/-- `cmpE x x` is never negative: equal structure descends to equal leaves,
where every leaf comparison of the source returns `0` or — for non-finite
values — `1`. -/
theorem cmpE_self_nonneg (x : Expr) : 0 ≤ cmpE x x := by
  induction x with
  | op k l r ihl ihr =>
      simp only [cmpE, exprIdx, sub_self, if_neg (lt_irrefl (0 : Int)), if_pos rfl,
        lt_irrefl, if_false, if_true]
      rcases eq_or_lt_of_le ihl with h0 | hpos
      · rw [if_neg (by omega), if_pos h0.symm]
        exact ihr
      · rw [if_neg (by omega), if_neg (by omega)]
        omega
  | value v =>
      cases v with
      | fin q =>
          have h00 : Rat.blt (0 : ℚ) 0 = false := blt_false_iff.mpr (lt_irrefl 0)
          have h1 : qsub q q = 0 := by rw [qsub_eq]; simp
          simp [cmpE, exprIdx, vsub, vltB, veqB, h1, h00]
      | inf s => simp [cmpE, exprIdx, vsub, vltB, veqB]
      | nan => simp [cmpE, exprIdx, vsub, vltB, veqB]
  | symbol s =>
      have : scmp s s = 0 := by
        induction s with
        | nil => rfl
        | cons c cs ih => simp [scmp, ih]
      simp [cmpE, exprIdx, this]
  | _ => simp [cmpE, exprIdx]

/-- The comparator-induced equivalence is reflexive, for every expression
(including non-finite values, where `compare` returns `1` both ways). -/
theorem eqvE_refl (x : Expr) : eqvE x x = true := by
  have h := cmpE_self_nonneg x
  simp [eqvE, lessE]
  omega

/-- The comparator-induced equivalence is symmetric. -/
theorem eqvE_symm {a b : Expr} (h : eqvE a b = true) : eqvE b a = true := by
  simp [eqvE, lessE] at h ⊢
  omega

/-- The elements of `setInsert x l` are among `x` and the elements of `l`. -/
theorem setInsert_subset {y x : Expr} {l : List Expr} (h : y ∈ setInsert x l) :
    y = x ∨ y ∈ l := by
  induction l with
  | nil => simpa [setInsert] using h
  | cons z zs ih =>
      by_cases h1 : lessE x z = true
      · rw [setInsert, if_pos h1] at h
        simp only [List.mem_cons] at h
        rcases h with h | h | h <;> simp [h]
      · by_cases h2 : lessE z x = true
        · rw [setInsert, if_neg h1, if_pos h2] at h
          simp only [List.mem_cons] at h
          rcases h with h | h
          · simp [h]
          · rcases ih h with h | h <;> simp [h]
        · rw [setInsert, if_neg h1, if_neg h2] at h
          simp only [List.mem_cons] at h
          rcases h with h | h <;> simp [h]

/-- `setInsert` keeps every existing element. -/
theorem setInsert_mem {y x : Expr} {l : List Expr} (h : y ∈ l) : y ∈ setInsert x l := by
  induction l with
  | nil => simp at h
  | cons z zs ih =>
      by_cases h1 : lessE x z = true
      · rw [setInsert, if_pos h1]
        simp [h]
      · by_cases h2 : lessE z x = true
        · rw [setInsert, if_neg h1, if_pos h2]
          simp only [List.mem_cons] at h
          rcases h with h | h
          · simp [h]
          · simp [ih h]
        · rw [setInsert, if_neg h1, if_neg h2]
          simpa using h

/-- After `setInsert x l` the set contains an element equivalent to `x`
(either `x` itself or the equivalent element that suppressed the insert). -/
theorem containsEqv_setInsert (x : Expr) (l : List Expr) :
    containsEqv (setInsert x l) x = true := by
  induction l with
  | nil => simp [setInsert, containsEqv, eqvE_refl]
  | cons z zs ih =>
      by_cases h1 : lessE x z = true
      · rw [setInsert, if_pos h1]
        simp [containsEqv, eqvE_refl]
      · by_cases h2 : lessE z x = true
        · rw [setInsert, if_neg h1, if_pos h2]
          simp only [containsEqv, List.any_cons] at ih ⊢
          simp [ih]
        · rw [setInsert, if_neg h1, if_neg h2]
          have hz : eqvE z x = true := by
            simp only [eqvE, Bool.and_eq_true, Bool.not_eq_true']
            exact ⟨by simpa using h2, by simpa using h1⟩
          simp [containsEqv, hz]

/-- `containsEqv` is monotone under `setInsert`. -/
theorem containsEqv_setInsert_mono {y : Expr} {l : List Expr} (x : Expr)
    (h : containsEqv l y = true) : containsEqv (setInsert x l) y = true := by
  simp only [containsEqv, List.any_eq_true] at h ⊢
  obtain ⟨z, hz, he⟩ := h
  exact ⟨z, setInsert_mem hz, he⟩

/-- `popMin` returns an element of the queue together with the remaining
elements, each of which was in the queue. -/
theorem popMin_spec {q : List Expr} {x : Expr} {rest : List Expr}
    (h : popMin q = some (x, rest)) : x ∈ q ∧ ∀ y ∈ rest, y ∈ q := by
  induction q generalizing x rest with
  | nil => simp [popMin] at h
  | cons z zs ih =>
      rw [popMin] at h
      cases hz : popMin zs with
      | none =>
          rw [hz] at h
          simp only [Option.some.injEq, Prod.mk.injEq] at h
          obtain ⟨h1, h2⟩ := h
          subst h1; subst h2
          exact ⟨by simp, by simp⟩
      | some mr =>
          obtain ⟨m, r⟩ := mr
          rw [hz] at h
          simp only at h
          split at h
          · simp only [Option.some.injEq, Prod.mk.injEq] at h
            obtain ⟨h1, h2⟩ := h
            subst h1; subst h2
            exact ⟨by simp, fun y hy => by simp [hy]⟩
          · simp only [Option.some.injEq, Prod.mk.injEq] at h
            obtain ⟨h1, h2⟩ := h
            subst h1; subst h2
            obtain ⟨hm, hr⟩ := ih hz
            refine ⟨by simp [hm], ?_⟩
            intro y hy
            simp only [List.mem_cons] at hy ⊢
            rcases hy with hy | hy
            · simp [hy]
            · simp [hr y hy]

/-- Core of claim C4: whenever `match_r` fails, the binding it hands back is
exactly the caller's binding — every mutation in the C++ code happens either
on a local copy that is committed only on success, or on a success path. -/
theorem match_r_false_preserves (fuel : Nat) :
    ∀ l r β, (match_r fuel l r β).1 = false → (match_r fuel l r β).2 = β := by
  induction fuel with
  | zero => intro l r β _; rfl
  | succ n ih =>
      intro l r β h
      cases l with
      | placeholder lp =>
          -- lhs is a placeholder: either both are (tag test), or split the lookup
          cases r <;>
            first
            | rfl
            | (cases hb : blookup β lp with
               | some bound =>
                   simp only [match_r, hb] at h ⊢
                   split at h
                   · simp at h
                   · rename_i hc
                     rw [if_neg hc]
               | none =>
                   simp only [match_r, hb] at h
                   simp at h)
      | op lk ll lr =>
          cases r with
          | placeholder rp => exact ih _ _ _ h
          | op rk rl rr =>
              by_cases hk : lk = rk
              · simp only [match_r, if_pos hk] at h ⊢
                by_cases h1 : (match_r n ll rl β).1 = true
                · simp only [h1, if_pos rfl] at h ⊢
                  by_cases h2 : (match_r n lr rr (match_r n ll rl β).2).1 = true
                  · simp [h2] at h
                  · simp only [Bool.not_eq_true] at h2
                    simp [h2]
                · simp only [Bool.not_eq_true] at h1
                  simp [h1]
              · simp [match_r, if_neg hk]
          | _ => rfl
      | empty => cases r <;> first | rfl | exact ih _ _ _ h
      | fn lf => cases r <;> first | rfl | exact ih _ _ _ h
      | const lc => cases r <;> first | rfl | exact ih _ _ _ h
      | value lv => cases r <;> first | rfl | exact ih _ _ _ h
      | symbol ls => cases r <;> first | rfl | exact ih _ _ _ h

/-- Wrapper part of claim C4: `match` commits the working copy only on
success. -/
theorem matchW_false_preserves (fuel : Nat) (l r : Expr) (β : Binding)
    (h : (matchW fuel l r β).1 = false) : (matchW fuel l r β).2 = β := by
  unfold matchW at h ⊢
  by_cases hr : (match_r fuel l r β).1 = true
  · simp [hr] at h
  · simp only [Bool.not_eq_true] at hr
    simp [hr]

/-- `expand` never touches the iteration counter, the best tracker, or its
operation count. -/
theorem expand_preserves (next : Expr) :
    ∀ (ns : List Expr) (st : SState),
      (expand next st ns).iters = st.iters ∧
      (expand next st ns).best = st.best ∧
      (expand next st ns).bestOps = st.bestOps := by
  intro ns
  induction ns with
  | nil => intro st; exact ⟨rfl, rfl, rfl⟩
  | cons n rest ih =>
      intro st
      rw [expand, List.foldl_cons]
      by_cases hc : containsEqv st.closed n = true
      · rw [if_pos hc]
        exact ih st
      · rw [if_neg hc]
        exact ih _

/-- Every queue element after an expansion was in the queue before or is one
of the expanded neighbors. -/
theorem expand_queue_mem (next : Expr) :
    ∀ (ns : List Expr) (st : SState) (x : Expr),
      x ∈ (expand next st ns).queue → x ∈ st.queue ∨ x ∈ ns := by
  intro ns
  induction ns with
  | nil => intro st x hx; exact Or.inl hx
  | cons n rest ih =>
      intro st x hx
      rw [expand, List.foldl_cons] at hx
      by_cases hc : containsEqv st.closed n = true
      · rw [if_pos hc] at hx
        rcases ih st x hx with h | h
        · exact Or.inl h
        · exact Or.inr (by simp [h])
      · rw [if_neg hc] at hx
        rcases ih _ x hx with h | h
        · simp only [List.mem_append, List.mem_singleton] at h
          rcases h with h | h
          · exact Or.inl h
          · exact Or.inr (by simp [h])
        · exact Or.inr (by simp [h])

/-- The search loop executes at most `fuel` additional iterations. -/
theorem simplify_loop_iters_le (vp : Value → Value → Value) (mo : Nat) :
    ∀ (fuel : Nat) (st : SState), (simplify_loop vp mo fuel st).iters ≤ st.iters + fuel := by
  intro fuel
  induction fuel with
  | zero => intro st; simp [simplify_loop]
  | succ n ih =>
      intro st
      rw [simplify_loop]
      cases hp : popMin st.queue with
      | none => dsimp only; omega
      | some pr =>
          obtain ⟨next, queue'⟩ := pr
          simp only
          split
          · split <;> dsimp only <;> omega
          · split
            · split <;> dsimp only <;> omega
            · refine le_trans (ih _) ?_
              rw [(expand_preserves next (enumerate_transforms vp next) _).1]
              split <;> dsimp only <;> omega

/-- The search state invariant for claim C1: everything on the frontier is
reachable from the input, the best tracker holds a reachable expression, and
its operation count never exceeds the input's. -/
theorem simplify_loop_reach (vp : Value → Value → Value) (mo : Nat) (e0 : Expr) :
    ∀ (fuel : Nat) (st : SState),
      (∀ x ∈ st.queue, Reach vp e0 x) →
      Reach vp e0 st.best →
      st.bestOps = op_count st.best →
      st.bestOps ≤ op_count e0 →
      Reach vp e0 (simplify_loop vp mo fuel st).best ∧
      (simplify_loop vp mo fuel st).bestOps = op_count (simplify_loop vp mo fuel st).best ∧
      (simplify_loop vp mo fuel st).bestOps ≤ op_count e0 := by
  intro fuel
  induction fuel with
  | zero => intro st hq hb hbo hle; rw [simplify_loop]; exact ⟨hb, hbo, hle⟩
  | succ n ih =>
      intro st hq hb hbo hle
      rw [simplify_loop]
      cases hp : popMin st.queue with
      | none => exact ⟨hb, hbo, hle⟩
      | some pr =>
          obtain ⟨next, queue'⟩ := pr
          obtain ⟨hnext, hrest⟩ := popMin_spec hp
          have hrnext : Reach vp e0 next := hq next hnext
          simp only
          -- properties of the best tracker after the update
          by_cases hlt : op_count next < st.bestOps
          · rw [if_pos hlt]
            have h2b : Reach vp e0 next := hrnext
            split
            · exact ⟨h2b, rfl, by dsimp only; omega⟩
            · split
              · exact ⟨h2b, rfl, by dsimp only; omega⟩
              · refine ih _ ?_ ?_ ?_ ?_
                · intro x hx
                  rcases expand_queue_mem next _ _ x hx with h | h
                  · exact hq x (hrest x h)
                  · exact Reach.step hrnext h
                · rw [(expand_preserves next _ _).2.1]; exact h2b
                · rw [(expand_preserves next _ _).2.2, (expand_preserves next _ _).2.1]
                · rw [(expand_preserves next _ _).2.2]; dsimp only; omega
          · rw [if_neg hlt]
            split
            · exact ⟨hb, hbo, hle⟩
            · split
              · exact ⟨hb, hbo, hle⟩
              · refine ih _ ?_ ?_ ?_ ?_
                · intro x hx
                  rcases expand_queue_mem next _ _ x hx with h | h
                  · exact hq x (hrest x h)
                  · exact Reach.step hrnext h
                · rw [(expand_preserves next _ _).2.1]; exact hb
                · rw [(expand_preserves next _ _).2.2, (expand_preserves next _ _).2.1]
                  exact hbo
                · rw [(expand_preserves next _ _).2.2]; exact hle

/-- C1: For every expression `e` and budgets `maxOps`, `maxIters`, the
expression returned by `simplify(e, maxOps, maxIters)` is reachable from `e`
by a finite sequence of neighbor (`enumerate_transforms`) steps, and its
operation count is at most the operation count of `e`. -/
theorem C1_simplify_reachable_and_smaller (vp : Value → Value → Value)
    (e : Expr) (maxOps maxIters : Nat) :
    Reach vp e (simplify vp e maxOps maxIters) ∧
    op_count (simplify vp e maxOps maxIters) ≤ op_count e := by
  have h := simplify_loop_reach vp maxOps e maxIters (simplify_init e)
    (by intro x hx
        simp only [simplify_init, List.mem_singleton] at hx
        subst hx
        exact Reach.refl _)
    (Reach.refl e) rfl (le_refl _)
  exact ⟨h.1, by
    have h2 := h.2.1
    have h3 := h.2.2
    simp only [simplify, simplify_run] at h2 h3 ⊢
    omega⟩

/-- C3: When the rule table is bootstrapped from the fixed rule strings,
every single-letter lowercase symbol in a parsed rule is converted to a
placeholder by the mapping 'a' → placeholder 0, 'b' → 1, …, 'z' → 25
(`convert_placeholders` computes `placeholder::x + (s[0] - 'a')` with the
spec-modelled `placeholder::x = 0`); and every symbol occurring in any parsed
rule string is indeed a single lowercase letter. -/
theorem C3_placeholder_conversion :
    (∀ c : Char, 97 ≤ c.toNat → c.toNat ≤ 122 →
      convert_placeholders (.symbol [c]) = .placeholder (c.toNat - 97)) ∧
    transform_strings.all (fun s => symbolsSingleLower (parse s.data)) = true := by
  constructor
  · intro c _ _
    simp [convert_placeholders, placeholderX, List.headD]
  · decide

/-- Witness for C3 at the concrete letters 'b' and 'z'. -/
theorem C3_witness :
    convert_placeholders (.symbol ['b']) = .placeholder 1 ∧
    convert_placeholders (.symbol ['z']) = .placeholder 25 := by
  constructor
  · exact C3_placeholder_conversion.1 'b' (by decide) (by decide)
  · exact C3_placeholder_conversion.1 'z' (by decide) (by decide)

/-- C4: For every pattern, concrete expression, and initial binding: if the
matcher returns false, the caller's binding map is unchanged — both for the
recursive `match_r` (whose in-out map is the second result component) and for
the `match` wrapper; binding entries added inside a failed recursive subcall
are never visible to the caller. -/
theorem C4_match_failure_binding_unchanged :
    ∀ (fuel : Nat) (pat concrete : Expr) (β : Binding),
      ((match_r fuel pat concrete β).1 = false → (match_r fuel pat concrete β).2 = β) ∧
      ((matchW fuel pat concrete β).1 = false → (matchW fuel pat concrete β).2 = β) :=
  fun fuel pat concrete β =>
    ⟨match_r_false_preserves fuel pat concrete β, matchW_false_preserves fuel pat concrete β⟩

/-- Witness for C4: a failing match (value 1 against value 2, under a
nonempty initial binding) leaves the caller's binding untouched. -/
theorem C4_witness :
    (match_r 8 (.value (.fin 1)) (.value (.fin 2)) [(0, .symbol ['u'])]).1 = false ∧
    (match_r 8 (.value (.fin 1)) (.value (.fin 2)) [(0, .symbol ['u'])]).2 =
      [(0, .symbol ['u'])] := by
  refine ⟨by decide, ?_⟩
  exact (C4_match_failure_binding_unchanged 8 (.value (.fin 1)) (.value (.fin 2))
    [(0, .symbol ['u'])]).1 (by decide)

/-- C9: For every input expression and every finite `max_iterations` budget,
`simplify` terminates: the search loop runs at most `max_iterations`
iterations (the neighbor enumeration is the total structurally recursive
function `enumerate_transforms` of this embedding). -/
theorem C9_loop_iteration_bound (vp : Value → Value → Value) (e : Expr)
    (maxOps maxIters : Nat) :
    (simplify_run vp e maxOps maxIters).iters ≤ maxIters := by
  have h := simplify_loop_iters_le vp maxOps maxIters (simplify_init e)
  simpa [simplify_run, simplify_init] using h

/-!
## Trace-map structure (claim C10)
-/

/-- The comparator-induced equivalence is symmetric as a function. -/
theorem eqvE_comm (a b : Expr) : eqvE a b = eqvE b a := by
  simp [eqvE, Bool.and_comm]

/-- A trace lookup fails when no key is equivalent to the query. -/
theorem traceFind_eq_none {tr : List (Expr × Expr)} {x : Expr}
    (h : ∀ kp ∈ tr, eqvE kp.1 x = false) : traceFind tr x = none := by
  induction tr with
  | nil => rfl
  | cons kp rest ih =>
      obtain ⟨k, p⟩ := kp
      rw [traceFind, h (k, p) (List.mem_cons_self _ _)]
      simp only [Bool.false_eq_true, if_false]
      exact ih fun kp hkp => h kp (List.mem_cons_of_mem _ hkp)

/-- With pairwise non-equivalent keys, looking up the key stored at position
`i` finds exactly the parent stored at position `i`. -/
theorem traceFind_get {tr : List (Expr × Expr)}
    (hpw : List.Pairwise (fun a b => eqvE a b = false) (tr.map Prod.fst)) :
    ∀ (i : Nat) (h : i < tr.length),
      traceFind tr ((tr.get ⟨i, h⟩).1) = some ((tr.get ⟨i, h⟩).2) := by
  induction tr with
  | nil => intro i h; simp at h
  | cons kp rest ih =>
      obtain ⟨k, p⟩ := kp
      simp only [List.map_cons, List.pairwise_cons] at hpw
      obtain ⟨hhead, htail⟩ := hpw
      intro i h
      cases i with
      | zero =>
          rw [traceFind]
          simp [eqvE_refl]
      | succ j =>
          have hj : j < rest.length := Nat.lt_of_succ_lt_succ (by simpa using h)
          show traceFind ((k, p) :: rest) ((rest.get ⟨j, hj⟩).1) =
            some ((rest.get ⟨j, hj⟩).2)
          have hne : eqvE k ((rest.get ⟨j, hj⟩).1) = false :=
            hhead _ (List.mem_map_of_mem _ (rest.get_mem j hj))
          rw [traceFind, hne]
          simp only [Bool.false_eq_true, if_false]
          exact ih htail j hj

/-- The layering of a trace over an initial closed set `seen`: each entry's
parent was closed before the entry's key was (the key joins the closed set
right as the entry is appended). -/
inductive Layered : List Expr → List (Expr × Expr) → Prop
  | nil (seen : List Expr) : Layered seen []
  | cons {seen : List Expr} {k p : Expr} {rest : List (Expr × Expr)} :
      p ∈ seen → Layered (seen ++ [k]) rest → Layered seen ((k, p) :: rest)

/-- Appending a trace entry whose parent is already closed preserves the
layering. -/
theorem Layered.snoc {seen : List Expr} {tr : List (Expr × Expr)} {k p : Expr}
    (h : Layered seen tr) (hp : p ∈ seen ++ tr.map Prod.fst) :
    Layered seen (tr ++ [(k, p)]) := by
  induction h with
  | nil s =>
      simp only [List.map_nil, List.append_nil] at hp
      exact Layered.cons hp (Layered.nil _)
  | cons hp' _ ih =>
      refine Layered.cons hp' (ih ?_)
      simp only [List.map_cons, List.mem_append, List.mem_cons, List.mem_singleton] at hp ⊢
      tauto

/-- From the layering: each entry's parent is in the initial closed set or is
the key of a strictly earlier entry. -/
theorem Layered.get_parent {seen : List Expr} {tr : List (Expr × Expr)}
    (h : Layered seen tr) :
    ∀ (i : Nat) (hi : i < tr.length),
      (tr.get ⟨i, hi⟩).2 ∈ seen ∨
      ∃ (j : Nat) (hj : j < tr.length), j < i ∧ (tr.get ⟨j, hj⟩).1 = (tr.get ⟨i, hi⟩).2 := by
  induction h with
  | nil => intro i hi; simp at hi
  | cons hp _ ih =>
      intro i hi
      cases i with
      | zero => exact Or.inl hp
      | succ j =>
          have hj : j < _ := Nat.lt_of_succ_lt_succ (by simpa using hi)
          rcases ih j hj with hin | ⟨j', hj', hlt, heq⟩
          · simp only [List.mem_append, List.mem_singleton] at hin
            rcases hin with hin | hin
            · exact Or.inl hin
            · exact Or.inr ⟨0, by simp, Nat.succ_pos _, by simpa using hin.symm⟩
          · exact Or.inr ⟨j' + 1, by simpa using Nat.succ_lt_succ hj', Nat.succ_lt_succ hlt, heq⟩

/-- Main step towards C10: under the layering and the pairwise
non-equivalence of the closed set, the parent chain from every trace key
terminates at the root. -/
theorem reaches_root_of_layered (e0 : Expr) (T : List (Expr × Expr))
    (hlay : Layered [e0] T)
    (hpw : List.Pairwise (fun a b => eqvE a b = false) (e0 :: T.map Prod.fst)) :
    ∀ (i : Nat) (h : i < T.length), ReachesRoot T e0 ((T.get ⟨i, h⟩).1) := by
  have hpc := List.pairwise_cons.mp hpw
  have hroot : ReachesRoot T e0 e0 := by
    refine ReachesRoot.here ?_ rfl
    refine traceFind_eq_none fun kp hkp => ?_
    have h1 : eqvE e0 kp.1 = false := hpc.1 kp.1 (List.mem_map_of_mem _ hkp)
    rw [eqvE_comm] at h1
    exact h1
  intro i
  induction i using Nat.strong_induction_on with
  | _ i ih =>
      intro h
      have hfind := traceFind_get hpc.2 i h
      rcases hlay.get_parent i h with hin | ⟨j, hj, hlt, heq⟩
      · simp only [List.mem_singleton] at hin
        rw [hin] at hfind
        exact ReachesRoot.step hfind hroot
      · exact ReachesRoot.step hfind (heq ▸ ih j hlt hj)

/-- The search-state invariant for claim C10: the closed set is the input
followed by the trace keys in insertion order, closed elements are pairwise
non-equivalent, the frontier is a subset of the closed set, and the trace is
layered (each parent was closed strictly before its key). -/
def TraceInv (e0 : Expr) (st : SState) : Prop :=
  st.closed = e0 :: st.trace.map Prod.fst ∧
  List.Pairwise (fun a b => eqvE a b = false) st.closed ∧
  (∀ q ∈ st.queue, q ∈ st.closed) ∧
  Layered [e0] st.trace

/-- Expansion preserves the C10 invariant (and the membership of the parent
in the closed set). -/
theorem expand_trace_inv (e0 next : Expr) :
    ∀ (ns : List Expr) (st : SState), TraceInv e0 st → next ∈ st.closed →
      TraceInv e0 (expand next st ns) ∧ next ∈ (expand next st ns).closed := by
  intro ns
  induction ns with
  | nil => intro st h hn; exact ⟨h, hn⟩
  | cons n rest ih =>
      intro st h hn
      rw [expand, List.foldl_cons]
      by_cases hc : containsEqv st.closed n = true
      · rw [if_pos hc]
        exact ih st h hn
      · rw [if_neg hc]
        obtain ⟨h1, h2, h3, h4⟩ := h
        have hnoeqv : ∀ y ∈ st.closed, eqvE y n = false := by
          intro y hy
          by_contra hne
          simp only [Bool.not_eq_false] at hne
          exact hc (by simp only [containsEqv, List.any_eq_true]; exact ⟨y, hy, hne⟩)
        refine ih _ ⟨?_, ?_, ?_, ?_⟩ ?_
        · show st.closed ++ [n] = e0 :: (st.trace ++ [(n, next)]).map Prod.fst
          rw [h1]
          simp
        · show List.Pairwise _ (st.closed ++ [n])
          rw [List.pairwise_append]
          refine ⟨h2, by simp, ?_⟩
          intro a ha b hb
          simp only [List.mem_singleton] at hb
          subst hb
          exact hnoeqv a ha
        · show ∀ q ∈ st.queue ++ [n], q ∈ st.closed ++ [n]
          intro q hq
          simp only [List.mem_append, List.mem_singleton] at hq ⊢
          rcases hq with hq | hq
          · exact Or.inl (h3 q hq)
          · exact Or.inr hq
        · show Layered [e0] (st.trace ++ [(n, next)])
          refine h4.snoc ?_
          rw [h1] at hn
          simpa using hn
        · show next ∈ st.closed ++ [n]
          simp [hn]

/-- The search loop preserves the C10 invariant. -/
theorem simplify_loop_trace_inv (vp : Value → Value → Value) (mo : Nat) (e0 : Expr) :
    ∀ (fuel : Nat) (st : SState), TraceInv e0 st →
      TraceInv e0 (simplify_loop vp mo fuel st) := by
  intro fuel
  induction fuel with
  | zero => intro st h; rw [simplify_loop]; exact h
  | succ n ih =>
      intro st h
      rw [simplify_loop]
      cases hp : popMin st.queue with
      | none => exact h
      | some pr =>
          obtain ⟨next, queue'⟩ := pr
          simp only
          obtain ⟨hnext, hsub⟩ := popMin_spec hp
          have hnc : next ∈ st.closed := h.2.2.1 next hnext
          have hq' : ∀ q ∈ queue', q ∈ st.closed := fun q hq => h.2.2.1 q (hsub q hq)
          split
          · split
            · exact ⟨h.1, h.2.1, hq', h.2.2.2⟩
            · exact ⟨h.1, h.2.1, hq', h.2.2.2⟩
          · split
            · split
              · exact ⟨h.1, h.2.1, hq', h.2.2.2⟩
              · exact ⟨h.1, h.2.1, hq', h.2.2.2⟩
            · apply ih
              refine (expand_trace_inv e0 next _ _ ?_ ?_).1
              · split
                · exact ⟨h.1, h.2.1, hq', h.2.2.2⟩
                · exact ⟨h.1, h.2.1, hq', h.2.2.2⟩
              · split <;> exact hnc

/-- C10: Throughout every run of `simplify`, the trace (parent) map is
acyclic and rooted at the input: the initial expression is never a key of
the trace map, the closed set is exactly the input followed by the trace keys
in insertion order (each key enqueued exactly once, when first added to the
closed set, with no two closed elements comparator-equivalent), and following
parent links from any key reaches the initial expression in finitely many
steps, so the `traceback` recursion terminates. -/
theorem C10_trace_rooted_acyclic (vp : Value → Value → Value) (e : Expr)
    (maxOps maxIters : Nat) :
    traceFind (simplify_run vp e maxOps maxIters).trace e = none ∧
    (simplify_run vp e maxOps maxIters).closed
      = e :: (simplify_run vp e maxOps maxIters).trace.map Prod.fst ∧
    List.Pairwise (fun a b => eqvE a b = false)
      (simplify_run vp e maxOps maxIters).closed ∧
    ∀ k ∈ (simplify_run vp e maxOps maxIters).trace.map Prod.fst,
      ReachesRoot (simplify_run vp e maxOps maxIters).trace e k := by
  have hinv : TraceInv e (simplify_run vp e maxOps maxIters) := by
    apply simplify_loop_trace_inv
    refine ⟨rfl, ?_, ?_, Layered.nil _⟩
    · simp [simplify_init]
    · intro q hq
      simpa [simplify_init] using hq
  obtain ⟨h1, h2, h3, h4⟩ := hinv
  have hpw' : List.Pairwise (fun a b => eqvE a b = false)
      (e :: (simplify_run vp e maxOps maxIters).trace.map Prod.fst) := h1 ▸ h2
  refine ⟨?_, h1, h2, ?_⟩
  · refine traceFind_eq_none fun kp hkp => ?_
    have hh := (List.pairwise_cons.mp hpw').1 kp.1 (List.mem_map_of_mem _ hkp)
    rw [eqvE_comm] at hh
    exact hh
  · intro k hk
    obtain ⟨kp, hkp, hke⟩ := List.mem_map.mp hk
    obtain ⟨⟨i, hi⟩, hget⟩ := List.mem_iff_get.mp hkp
    have := reaches_root_of_layered e _ h4 hpw' i hi
    rw [hget] at this
    rw [← hke]
    exact this

/-- An arbitrary instantiation of the uninterpreted `std::pow` parameter for
concrete runs; no expression evaluated below contains an exponent node with
two value children, so the choice never reaches the result. -/
def vpowNan : Value → Value → Value := fun _ _ => Value.nan

/-- Witness for C10: in the one-iteration run on `u + v`, the key `v + u`
(produced by commutativity) is a trace key whose parent chain reaches the
input. -/
theorem C10_witness :
    (.op .sum (.symbol ['v']) (.symbol ['u'])) ∈
      (simplify_run vpowNan (.op .sum (.symbol ['u']) (.symbol ['v'])) 32 1).trace.map
        Prod.fst ∧
    ReachesRoot (simplify_run vpowNan (.op .sum (.symbol ['u']) (.symbol ['v'])) 32 1).trace
      (.op .sum (.symbol ['u']) (.symbol ['v']))
      (.op .sum (.symbol ['v']) (.symbol ['u'])) :=
  ⟨by decide,
   (C10_trace_rooted_acyclic vpowNan (.op .sum (.symbol ['u']) (.symbol ['v'])) 32 1).2.2.2
     (.op .sum (.symbol ['v']) (.symbol ['u'])) (by decide)⟩

/-!
## Claim C6: the numeric reduction of difference nodes
-/

/-- Counterexample to C6 as stated: for the difference node with children
`Value(NaN)` and `Value(0)`, `a ≥ b` is false (IEEE comparison with NaN), so
the claim predicts the reciprocal-wrapped `Value(b − a)`; but the code tests
`lhs < rhs`, which is also false for NaN, and inserts `Value(a − b)`
(`Value(NaN)`) instead — the predicted reciprocal node is not in the neighbor
set.  (The expression has no value–value exponent node, so the `std::pow`
instantiation is irrelevant.) -/
theorem C6_counterexample :
    vgeB .nan (.fin 0) = false ∧
    containsEqv
      (enumerate_transforms vpowNan (.op .difference (.value .nan) (.value (.fin 0))))
      (.op .reciprocal (.value (vsub (.fin 0) .nan)) .empty) = false ∧
    containsEqv
      (enumerate_transforms vpowNan (.op .difference (.value .nan) (.value (.fin 0))))
      (.value (vsub .nan (.fin 0))) = true :=
  ⟨by decide, by decide, by decide⟩

/-- C6 (amended): in the numeric-reduction step of `neighbors(e)`, for an
operator node of kind difference whose children are `Value(a)` and
`Value(b)`: the inserted neighbor is the reciprocal node wrapping
`Value(b − a)` when `a < b` (IEEE comparison), and otherwise — including the
NaN cases, where both `a < b` and `a ≥ b` are false — is `Value(a − b)`. -/
theorem C6_difference_reduction (vp : Value → Value → Value) (a b : Value) :
    (vltB a b = true →
      containsEqv (enumerate_transforms vp (.op .difference (.value a) (.value b)))
        (.op .reciprocal (.value (vsub b a)) .empty) = true) ∧
    (vltB a b = false →
      containsEqv (enumerate_transforms vp (.op .difference (.value a) (.value b)))
        (.value (vsub a b)) = true) := by
  constructor <;> intro h <;>
    · show containsEqv (numeric_inserts vp .difference a b _) _ = true
      rw [numeric_inserts, h]
      exact containsEqv_setInsert _ _

/-- Witness for C6 (amended) at `(a, b) = (3, 5)` for the reciprocal branch
and `(5, 3)` for the plain branch. -/
theorem C6_witness :
    containsEqv
      (enumerate_transforms vpowNan (.op .difference (.value (.fin 3)) (.value (.fin 5))))
      (.op .reciprocal (.value (vsub (.fin 5) (.fin 3))) .empty) = true ∧
    containsEqv
      (enumerate_transforms vpowNan (.op .difference (.value (.fin 5)) (.value (.fin 3))))
      (.value (vsub (.fin 5) (.fin 3))) = true :=
  ⟨(C6_difference_reduction vpowNan (.fin 3) (.fin 5)).1 (by decide),
   (C6_difference_reduction vpowNan (.fin 5) (.fin 3)).2 (by decide)⟩

/-!
## Claim C5: neighbors of placeholder-free expressions are placeholder-free
-/

/-- Membership in a sorted placeholder-set insertion. -/
theorem phInsert_mem_iff {q p : Nat} : ∀ {s : List Nat}, q ∈ phInsert p s ↔ q = p ∨ q ∈ s := by
  intro s
  induction s with
  | nil => simp [phInsert]
  | cons a rest ih =>
      by_cases h1 : p < a
      · rw [phInsert, if_pos h1]
        simp
      · by_cases h2 : a < p
        · rw [phInsert, if_neg h1, if_pos h2]
          simp only [List.mem_cons, ih]
          tauto
        · rw [phInsert, if_neg h1, if_neg h2]
          have : p = a := by omega
          subst this
          simp only [List.mem_cons]
          tauto

/-- Membership through `placeholder_count_r` decomposes into the seed set and
the expression's own placeholder set. -/
theorem pcr_mem_iff (q : Nat) :
    ∀ (e : Expr) (s : List Nat),
      q ∈ placeholder_count_r e s ↔ q ∈ enumerate_placeholders e ∨ q ∈ s := by
  intro e
  induction e with
  | op k l r ihl ihr =>
      intro s
      show q ∈ placeholder_count_r r (placeholder_count_r l s) ↔
        q ∈ placeholder_count_r r (placeholder_count_r l []) ∨ q ∈ s
      rw [ihr, ihl, ihr, ihl]
      simp only [List.not_mem_nil, or_false]
      tauto
  | placeholder p =>
      intro s
      show q ∈ phInsert p s ↔ q ∈ phInsert p [] ∨ q ∈ s
      rw [phInsert_mem_iff, phInsert_mem_iff]
      simp only [List.not_mem_nil, or_false]
  | empty => intro s; simp [enumerate_placeholders, placeholder_count_r]
  | fn f => intro s; simp [enumerate_placeholders, placeholder_count_r]
  | const c => intro s; simp [enumerate_placeholders, placeholder_count_r]
  | value v => intro s; simp [enumerate_placeholders, placeholder_count_r]
  | symbol ss => intro s; simp [enumerate_placeholders, placeholder_count_r]

/-- Members of a placeholder-set union. -/
theorem phUnion_mem {q : Nat} : ∀ {t s : List Nat}, q ∈ t ∨ q ∈ s → q ∈ phUnion s t := by
  intro t
  induction t with
  | nil =>
      intro s h
      rcases h with h | h
      · simp at h
      · exact h
  | cons a rest ih =>
      intro s h
      show q ∈ phUnion (phInsert a s) rest
      rcases h with h | h
      · rcases List.mem_cons.mp h with h | h
        · exact ih (Or.inr (phInsert_mem_iff.mpr (Or.inl h)))
        · exact ih (Or.inl h)
      · exact ih (Or.inr (phInsert_mem_iff.mpr (Or.inr h)))

/-- A successful lookup comes from an entry of the binding. -/
theorem blookup_mem : ∀ {β : List (Nat × Expr)} {p : Nat} {e : Expr},
    blookup β p = some e → (p, e) ∈ β := by
  intro β
  induction β with
  | nil => intro p e h; simp [blookup] at h
  | cons kv rest ih =>
      intro p e h
      obtain ⟨pq, pe⟩ := kv
      rw [blookup] at h
      split at h
      · rename_i hq
        injection h with h
        subst h; subst hq
        exact List.mem_cons_self _ _
      · exact List.mem_cons_of_mem _ (ih h)

/-- On success, `match_r` only ever binds placeholder-free expressions,
provided the binding started placeholder-free and at least one of the two
operands is placeholder-free (the concrete side; the match may swap sides,
but never both at once). -/
theorem match_r_range_noPh (fuel : Nat) :
    ∀ l r β, (∀ kv ∈ β, noPh kv.2 = true) →
      (noPh l = true ∨ noPh r = true) →
      (match_r fuel l r β).1 = true →
      ∀ kv ∈ (match_r fuel l r β).2, noPh kv.2 = true := by
  induction fuel with
  | zero => intro l r β _ _ hs; simp [match_r] at hs
  | succ n ih =>
      intro l r β hβ hlr hs
      cases l with
      | placeholder lp =>
          cases r with
          | placeholder rp => exact hβ
          | _ =>
              -- rhs is not a placeholder, hence placeholder-free by `hlr`
              cases hb : blookup β lp with
              | some bound =>
                  have hbound : noPh bound = true := hβ _ (blookup_mem hb)
                  simp only [match_r, hb] at hs ⊢
                  split at hs
                  · rename_i hc
                    rw [if_pos hc]
                    exact ih _ _ _ hβ (Or.inl hbound) hc
                  · simp at hs
              | none =>
                  simp only [match_r, hb]
                  intro kv hkv
                  rcases List.mem_cons.mp hkv with hkv | hkv
                  · rw [hkv]
                    rcases hlr with h | h
                    · simp [noPh] at h
                    · exact h
                  · exact hβ kv hkv
      | op lk ll lr =>
          cases r with
          | placeholder rp =>
              have hl : noPh (Expr.op lk ll lr) = true := by
                rcases hlr with h | h
                · exact h
                · simp [noPh] at h
              exact ih (.placeholder rp) (.op lk ll lr) β hβ (Or.inr hl) hs
          | op rk rl rr =>
              by_cases hk : lk = rk
              · simp only [match_r, if_pos hk] at hs ⊢
                have hchild : (noPh ll = true ∧ noPh lr = true) ∨
                    (noPh rl = true ∧ noPh rr = true) := by
                  rcases hlr with h | h
                  · simp only [noPh, Bool.and_eq_true] at h
                    exact Or.inl h
                  · simp only [noPh, Bool.and_eq_true] at h
                    exact Or.inr h
                by_cases h1 : (match_r n ll rl β).1 = true
                · simp only [h1, if_pos rfl] at hs ⊢
                  have hr1 : ∀ kv ∈ (match_r n ll rl β).2, noPh kv.2 = true := by
                    refine ih _ _ _ hβ ?_ h1
                    rcases hchild with h | h
                    · exact Or.inl h.1
                    · exact Or.inr h.1
                  by_cases h2 : (match_r n lr rr (match_r n ll rl β).2).1 = true
                  · simp only [h2, if_pos rfl] at hs ⊢
                    refine ih _ _ _ hr1 ?_ h2
                    rcases hchild with h | h
                    · exact Or.inl h.2
                    · exact Or.inr h.2
                  · simp only [Bool.not_eq_true] at h2
                    simp [h2] at hs
                · simp only [Bool.not_eq_true] at h1
                  simp [h1] at hs
              · simp [match_r, if_neg hk] at hs
          | _ => exact hβ
      | empty =>
          cases r with
          | placeholder rp => exact ih (.placeholder rp) .empty β hβ (Or.inr rfl) hs
          | _ => exact hβ
      | fn lf =>
          cases r with
          | placeholder rp => exact ih (.placeholder rp) (.fn lf) β hβ (Or.inr rfl) hs
          | _ => exact hβ
      | const lc =>
          cases r with
          | placeholder rp => exact ih (.placeholder rp) (.const lc) β hβ (Or.inr rfl) hs
          | _ => exact hβ
      | value lv =>
          cases r with
          | placeholder rp => exact ih (.placeholder rp) (.value lv) β hβ (Or.inr rfl) hs
          | _ => exact hβ
      | symbol ls =>
          cases r with
          | placeholder rp => exact ih (.placeholder rp) (.symbol ls) β hβ (Or.inr rfl) hs
          | _ => exact hβ

/-- The `match` wrapper only ever hands back placeholder-free bindings (on
failure it hands back the original). -/
theorem matchW_range_noPh (fuel : Nat) (l r : Expr) (β : Binding)
    (hβ : ∀ kv ∈ β, noPh kv.2 = true) (hlr : noPh l = true ∨ noPh r = true) :
    ∀ kv ∈ (matchW fuel l r β).2, noPh kv.2 = true := by
  unfold matchW
  by_cases hs : (match_r fuel l r β).1 = true
  · simp only [hs, if_pos rfl]
    exact match_r_range_noPh fuel l r β hβ hlr hs
  · simp only [Bool.not_eq_true] at hs
    simp only [hs, Bool.false_eq_true, if_false]
    exact hβ

/-- The left operand's placeholders are placeholders of the operator node. -/
theorem ph_mem_op_left {p : Nat} {k : OpType} {l r : Expr}
    (h : p ∈ enumerate_placeholders l) : p ∈ enumerate_placeholders (.op k l r) := by
  show p ∈ placeholder_count_r r (placeholder_count_r l [])
  rw [pcr_mem_iff]
  exact Or.inr h

/-- The right operand's placeholders are placeholders of the operator node. -/
theorem ph_mem_op_right {p : Nat} {k : OpType} {l r : Expr}
    (h : p ∈ enumerate_placeholders r) : p ∈ enumerate_placeholders (.op k l r) := by
  show p ∈ placeholder_count_r r (placeholder_count_r l [])
  rw [pcr_mem_iff]
  exact Or.inl h

/-- Substitution with a placeholder-free binding that covers the target's
placeholders yields a placeholder-free expression. -/
theorem apply_transform_r_noPh (src : Expr) :
    ∀ (t : Expr) (β : Binding), (∀ kv ∈ β, noPh kv.2 = true) →
      (∀ p ∈ enumerate_placeholders t, (blookup β p).isSome = true) →
      noPh (apply_transform_r src t β) = true := by
  intro t
  induction t with
  | placeholder p =>
      intro β hβ hcov
      have hp : p ∈ enumerate_placeholders (.placeholder p) := by
        show p ∈ phInsert p []
        rw [phInsert_mem_iff]
        exact Or.inl rfl
      have hsome := hcov p hp
      cases hb : blookup β p with
      | none => rw [hb] at hsome; simp at hsome
      | some e' =>
          show noPh ((blookup β p).getD .empty) = true
          rw [hb]
          exact hβ _ (blookup_mem hb)
  | op k l r ihl ihr =>
      intro β hβ hcov
      show noPh (.op k (apply_transform_r src l β) (apply_transform_r src r β)) = true
      simp only [noPh, Bool.and_eq_true]
      exact ⟨ihl β hβ fun p hp => hcov p (ph_mem_op_left hp),
             ihr β hβ fun p hp => hcov p (ph_mem_op_right hp)⟩
  | empty => intro β _ _; rfl
  | fn f => intro β _ _; rfl
  | const c => intro β _ _; rfl
  | value v => intro β _ _; rfl
  | symbol s => intro β _ _; rfl

/-- A single rule-direction insertion keeps the output placeholder-free. -/
theorem dir_insert_noPh {e tgt : Expr} {β : Binding} {mp : List Nat} {out : List Expr}
    (hsub : ∀ p ∈ enumerate_placeholders tgt, p ∈ mp)
    (hβ : ∀ kv ∈ β, noPh kv.2 = true)
    (hout : ∀ x ∈ out, noPh x = true)
    (hmp : match_placeholders β mp = true) :
    ∀ x ∈ setInsert (apply_transform_r e tgt β) out, noPh x = true := by
  intro x hx
  rcases setInsert_subset hx with h | h
  · rw [h]
    refine apply_transform_r_noPh e tgt β hβ fun p hp => ?_
    have hall := ((Bool.and_eq_true _ _).mp hmp).2
    rw [List.all_eq_true] at hall
    exact hall p (hsub p hp)
  · exact hout x h

/-- The target→source half of `rule_inserts`, stated for an arbitrary
intermediate pair (accumulated output, binding left by the source
direction). -/
theorem tgt_dir_noPh (e : Expr) (tr : Transform) (pr : List Expr × Binding)
    (he : noPh e = true)
    (hout1 : ∀ x ∈ pr.1, noPh x = true) (hβ1 : ∀ kv ∈ pr.2, noPh kv.2 = true) :
    ∀ x ∈ (if (enumerate_placeholders tr.target).length =
        (phUnion (enumerate_placeholders tr.source) (enumerate_placeholders tr.target)).length
      then
        (if (matchW (matchFuel e tr.target) e tr.target pr.2).1 &&
            match_placeholders (matchW (matchFuel e tr.target) e tr.target pr.2).2
              (phUnion (enumerate_placeholders tr.source) (enumerate_placeholders tr.target))
        then setInsert (apply_transform_r e tr.source
              (matchW (matchFuel e tr.target) e tr.target pr.2).2) pr.1
        else pr.1)
      else pr.1), noPh x = true := by
  split
  · split
    · rename_i hm2
      obtain ⟨_, hmp2⟩ := (Bool.and_eq_true _ _).mp hm2
      exact dir_insert_noPh (fun p hp => phUnion_mem (Or.inr hp))
        (matchW_range_noPh _ _ _ _ hβ1 (Or.inl he)) hout1 hmp2
    · exact hout1
  · exact hout1

/-- The per-rule step of the neighbor enumerator keeps the output
placeholder-free whenever the enumerated expression is. -/
theorem rule_inserts_noPh (e : Expr) (tr : Transform) (out : List Expr)
    (he : noPh e = true) (hout : ∀ x ∈ out, noPh x = true) :
    ∀ x ∈ rule_inserts e tr out, noPh x = true := by
  have hfst : ∀ kv ∈ (matchW (matchFuel e tr.source) e tr.source []).2, noPh kv.2 = true :=
    matchW_range_noPh _ _ _ [] (by simp) (Or.inl he)
  have hstep1 :
      ∀ x ∈ (if (enumerate_placeholders tr.source).length =
          (phUnion (enumerate_placeholders tr.source) (enumerate_placeholders tr.target)).length
        then
          (if (matchW (matchFuel e tr.source) e tr.source []).1 &&
              match_placeholders (matchW (matchFuel e tr.source) e tr.source []).2
                (phUnion (enumerate_placeholders tr.source) (enumerate_placeholders tr.target))
          then (setInsert (apply_transform_r e tr.target
                  (matchW (matchFuel e tr.source) e tr.source []).2) out,
                (matchW (matchFuel e tr.source) e tr.source []).2)
          else (out, (matchW (matchFuel e tr.source) e tr.source []).2))
        else (out, ([] : Binding))).1, noPh x = true := by
    split
    · split
      · rename_i hm1
        obtain ⟨_, hmp1⟩ := (Bool.and_eq_true _ _).mp hm1
        exact dir_insert_noPh (fun p hp => phUnion_mem (Or.inl hp)) hfst hout hmp1
      · exact hout
    · exact hout
  have hstep2 :
      ∀ kv ∈ (if (enumerate_placeholders tr.source).length =
          (phUnion (enumerate_placeholders tr.source) (enumerate_placeholders tr.target)).length
        then
          (if (matchW (matchFuel e tr.source) e tr.source []).1 &&
              match_placeholders (matchW (matchFuel e tr.source) e tr.source []).2
                (phUnion (enumerate_placeholders tr.source) (enumerate_placeholders tr.target))
          then (setInsert (apply_transform_r e tr.target
                  (matchW (matchFuel e tr.source) e tr.source []).2) out,
                (matchW (matchFuel e tr.source) e tr.source []).2)
          else (out, (matchW (matchFuel e tr.source) e tr.source []).2))
        else (out, ([] : Binding))).2, noPh kv.2 = true := by
    split
    · split
      · exact hfst
      · exact hfst
    · simp
  exact tgt_dir_noPh e tr _ he hstep1 hstep2

/-- Folding the rule loop over any rule list keeps the output
placeholder-free. -/
theorem foldl_rule_inserts_noPh (e : Expr) (he : noPh e = true) :
    ∀ (trs : List Transform) (acc : List Expr), (∀ x ∈ acc, noPh x = true) →
      ∀ x ∈ trs.foldl (fun out tr => rule_inserts e tr out) acc, noPh x = true := by
  intro trs
  induction trs with
  | nil => intro acc hacc; exact hacc
  | cons tr rest ih =>
      intro acc hacc
      rw [List.foldl_cons]
      exact ih _ (rule_inserts_noPh e tr acc he hacc)

/-- Members of a subexpression-rewrap fold are old members or rewrapped
transformed children. -/
theorem foldl_setInsert_cases {f : Expr → Expr} :
    ∀ (ts : List Expr) (acc : List Expr) (x : Expr),
      x ∈ ts.foldl (fun out t => setInsert (f t) out) acc →
      x ∈ acc ∨ ∃ t ∈ ts, x = f t := by
  intro ts
  induction ts with
  | nil => intro acc x hx; exact Or.inl hx
  | cons t rest ih =>
      intro acc x hx
      rw [List.foldl_cons] at hx
      rcases ih _ x hx with h | ⟨t', ht', he'⟩
      · rcases setInsert_subset h with h | h
        · exact Or.inr ⟨t, by simp, h⟩
        · exact Or.inl h
      · exact Or.inr ⟨t', by simp [ht'], he'⟩

/-- The numeric-reduction step only inserts value leaves or a
reciprocal-wrapped value leaf, all placeholder-free. -/
theorem numeric_inserts_noPh (vp : Value → Value → Value) (k : OpType) (a b : Value)
    (out : List Expr) (hout : ∀ x ∈ out, noPh x = true) :
    ∀ x ∈ numeric_inserts vp k a b out, noPh x = true := by
  intro x hx
  cases k with
  | sum =>
      rcases setInsert_subset hx with h | h
      · rw [h]; rfl
      · exact hout x h
  | product =>
      rcases setInsert_subset hx with h | h
      · rw [h]; rfl
      · exact hout x h
  | quotient =>
      rcases setInsert_subset hx with h | h
      · rw [h]; rfl
      · exact hout x h
  | exponent =>
      rcases setInsert_subset hx with h | h
      · rw [h]; rfl
      · exact hout x h
  | difference =>
      rw [numeric_inserts] at hx
      split at hx <;>
        · rcases setInsert_subset hx with h | h
          · rw [h]; rfl
          · exact hout x h
  | _ => exact hout x hx

/-- The guarded numeric step preserves placeholder-freeness of the output
set. -/
theorem numeric_step_noPh (vp : Value → Value → Value) (k : OpType) :
    ∀ (l r : Expr) (out : List Expr), (∀ x ∈ out, noPh x = true) →
      ∀ x ∈ numeric_step vp k l r out, noPh x = true := by
  intro l r out hout x hx
  cases l <;> cases r <;>
    first
    | exact hout x hx
    | exact numeric_inserts_noPh _ _ _ _ _ hout x hx

/-- Core of C5 (amended): neighbors of a placeholder-free expression are
placeholder-free. -/
theorem enumerate_transforms_noPh (vp : Value → Value → Value) :
    ∀ (e : Expr), noPh e = true → ∀ x ∈ enumerate_transforms vp e, noPh x = true := by
  intro e
  induction e with
  | op k l r ihl ihr =>
      intro he x hx
      have hel : noPh l = true := ((Bool.and_eq_true _ _).mp he).1
      have her : noPh r = true := ((Bool.and_eq_true _ _).mp he).2
      have hout0 : ∀ y ∈ transforms.foldl
          (fun out tr => rule_inserts (.op k l r) tr out) [], noPh y = true :=
        foldl_rule_inserts_noPh (.op k l r) he transforms [] (by simp)
      have hout1 : ∀ y ∈ (enumerate_transforms vp l).foldl
          (fun out t => setInsert (.op k t r) out)
          (transforms.foldl (fun out tr => rule_inserts (.op k l r) tr out) []),
          noPh y = true := by
        intro y hy
        rcases foldl_setInsert_cases _ _ y hy with h | ⟨t, ht, hye⟩
        · exact hout0 y h
        · rw [hye]
          show (noPh t && noPh r) = true
          rw [ihl hel t ht, her]
          rfl
      have hout2 : ∀ y ∈ (enumerate_transforms vp r).foldl
          (fun out t => setInsert (.op k l t) out)
          ((enumerate_transforms vp l).foldl (fun out t => setInsert (.op k t r) out)
            (transforms.foldl (fun out tr => rule_inserts (.op k l r) tr out) [])),
          noPh y = true := by
        intro y hy
        rcases foldl_setInsert_cases _ _ y hy with h | ⟨t, ht, hye⟩
        · exact hout1 y h
        · rw [hye]
          show (noPh l && noPh t) = true
          rw [ihr her t ht, hel]
          rfl
      rw [enumerate_transforms] at hx
      exact numeric_step_noPh vp k l r _ hout2 x hx
  | _ =>
      intro he x hx
      exact foldl_rule_inserts_noPh _ he transforms [] (by simp) x hx

/-- Counterexample to C5 as stated: over arbitrary expressions — here the
bare pattern `placeholder 23` — the neighbor set does contain placeholders
(the "x + 0 = x" rule fires in the target→source direction, binding the rule
placeholder to the input placeholder itself; in a debug build the assert at
expression.cpp 547 fires, in release the element is inserted). -/
theorem C5_counterexample :
    (Expr.op .sum (.placeholder 23) (.value (.fin 0))) ∈
      enumerate_transforms vpowNan (.placeholder 23) ∧
    noPh (.op .sum (.placeholder 23) (.value (.fin 0))) = false :=
  ⟨by decide, by decide⟩

/-- C5 (amended): for every placeholder-free expression `e` — the only kind
the search ever enumerates, since the parser produces no placeholders — every
element of `neighbors(e)` has a well-defined operation count (≥ 0, total by
construction) and contains no placeholder leaves. -/
theorem C5_neighbors_placeholder_free (vp : Value → Value → Value) (e : Expr)
    (he : noPh e = true) :
    ∀ x ∈ enumerate_transforms vp e, noPh x = true ∧ 0 ≤ op_count x :=
  fun x hx => ⟨enumerate_transforms_noPh vp e he x hx, Nat.zero_le _⟩

/-- Witness for C5 (amended) on the placeholder-free input `u`: the neighbor
`u + 0` is placeholder-free. -/
theorem C5_witness :
    noPh (.symbol ['u']) = true ∧
    noPh (.op .sum (.symbol ['u']) (.value (.fin 0))) = true :=
  ⟨by decide,
   (C5_neighbors_placeholder_free vpowNan (.symbol ['u']) (by decide)
     (.op .sum (.symbol ['u']) (.value (.fin 0))) (by decide)).1⟩

/-!
## Claim C2: the two rule directions and the shared per-rule binding
-/

/-- Equivalent presence in the output is preserved by the target→source half
of the rule step, stated for an arbitrary intermediate pair. -/
theorem tgt_dir_mono (e : Expr) (tr : Transform) (pr : List Expr × Binding) (y : Expr)
    (h : containsEqv pr.1 y = true) :
    containsEqv (if (enumerate_placeholders tr.target).length =
        (phUnion (enumerate_placeholders tr.source) (enumerate_placeholders tr.target)).length
      then
        (if (matchW (matchFuel e tr.target) e tr.target pr.2).1 &&
            match_placeholders (matchW (matchFuel e tr.target) e tr.target pr.2).2
              (phUnion (enumerate_placeholders tr.source) (enumerate_placeholders tr.target))
        then setInsert (apply_transform_r e tr.source
              (matchW (matchFuel e tr.target) e tr.target pr.2).2) pr.1
        else pr.1)
      else pr.1) y = true := by
  split
  · split
    · exact containsEqv_setInsert_mono _ h
    · exact h
  · exact h

/-- Equivalent presence in the output is preserved by the per-rule step. -/
theorem rule_inserts_mono (e : Expr) (tr : Transform) (out : List Expr) (y : Expr)
    (h : containsEqv out y = true) : containsEqv (rule_inserts e tr out) y = true := by
  have hstep1 :
      containsEqv (if (enumerate_placeholders tr.source).length =
          (phUnion (enumerate_placeholders tr.source) (enumerate_placeholders tr.target)).length
        then
          (if (matchW (matchFuel e tr.source) e tr.source []).1 &&
              match_placeholders (matchW (matchFuel e tr.source) e tr.source []).2
                (phUnion (enumerate_placeholders tr.source) (enumerate_placeholders tr.target))
          then (setInsert (apply_transform_r e tr.target
                  (matchW (matchFuel e tr.source) e tr.source []).2) out,
                (matchW (matchFuel e tr.source) e tr.source []).2)
          else (out, (matchW (matchFuel e tr.source) e tr.source []).2))
        else (out, ([] : Binding))).1 y = true := by
    split
    · split
      · exact containsEqv_setInsert_mono _ h
      · exact h
    · exact h
  exact tgt_dir_mono e tr _ y hstep1

/-- Equivalent presence in the output is preserved by the rule loop. -/
theorem foldl_rule_inserts_mono (e : Expr) :
    ∀ (trs : List Transform) (acc : List Expr) (y : Expr), containsEqv acc y = true →
      containsEqv (trs.foldl (fun out tr => rule_inserts e tr out) acc) y = true := by
  intro trs
  induction trs with
  | nil => intro acc y h; exact h
  | cons tr rest ih =>
      intro acc y h
      rw [List.foldl_cons]
      exact ih _ y (rule_inserts_mono e tr acc y h)

/-- Equivalent presence in the output is preserved by a rewrap fold. -/
theorem foldl_setInsert_mono {f : Expr → Expr} :
    ∀ (ts : List Expr) (acc : List Expr) (y : Expr), containsEqv acc y = true →
      containsEqv (ts.foldl (fun out t => setInsert (f t) out) acc) y = true := by
  intro ts
  induction ts with
  | nil => intro acc y h; exact h
  | cons t rest ih =>
      intro acc y h
      rw [List.foldl_cons]
      exact ih _ y (containsEqv_setInsert_mono _ h)

/-- Equivalent presence in the output is preserved by the numeric switch. -/
theorem numeric_inserts_mono (vp : Value → Value → Value) (k : OpType) (a b : Value)
    (out : List Expr) (y : Expr) (h : containsEqv out y = true) :
    containsEqv (numeric_inserts vp k a b out) y = true := by
  cases k with
  | sum => exact containsEqv_setInsert_mono _ h
  | product => exact containsEqv_setInsert_mono _ h
  | quotient => exact containsEqv_setInsert_mono _ h
  | exponent => exact containsEqv_setInsert_mono _ h
  | difference =>
      rw [numeric_inserts]
      split
      · exact containsEqv_setInsert_mono _ h
      · exact containsEqv_setInsert_mono _ h
  | _ => exact h

/-- Equivalent presence in the output is preserved by the guarded numeric
step. -/
theorem numeric_step_mono (vp : Value → Value → Value) (k : OpType) :
    ∀ (l r : Expr) (out : List Expr) (y : Expr), containsEqv out y = true →
      containsEqv (numeric_step vp k l r out) y = true := by
  intro l r out y h
  cases l <;> cases r <;>
    first
    | exact h
    | exact numeric_inserts_mono vp k _ _ out y h

/-- Whatever one table rule's step makes equivalently present (for every
accumulator) is equivalently present in the neighbor set. -/
theorem rule_fires_in_neighbors (vp : Value → Value → Value) (e : Expr) (tr : Transform)
    (htr : tr ∈ transforms) (y : Expr)
    (hy : ∀ acc : List Expr, containsEqv (rule_inserts e tr acc) y = true) :
    containsEqv (enumerate_transforms vp e) y = true := by
  obtain ⟨l1, l2, hsplit⟩ := List.append_of_mem htr
  have hout0 : containsEqv
      (transforms.foldl (fun out tr2 => rule_inserts e tr2 out) []) y = true := by
    rw [hsplit, List.foldl_append, List.foldl_cons]
    exact foldl_rule_inserts_mono e l2 _ y (hy _)
  cases e with
  | op k l r =>
      have h1 : containsEqv ((enumerate_transforms vp l).foldl
          (fun out t => setInsert (.op k t r) out)
          (transforms.foldl (fun out tr2 => rule_inserts (.op k l r) tr2 out) [])) y = true :=
        foldl_setInsert_mono _ _ y hout0
      have h2 : containsEqv ((enumerate_transforms vp r).foldl
          (fun out t => setInsert (.op k l t) out)
          ((enumerate_transforms vp l).foldl (fun out t => setInsert (.op k t r) out)
            (transforms.foldl (fun out tr2 => rule_inserts (.op k l r) tr2 out) []))) y = true :=
        foldl_setInsert_mono _ _ y h1
      exact numeric_step_mono vp k l r _ y h2
  | empty => exact hout0
  | fn f => exact hout0
  | const c => exact hout0
  | value v => exact hout0
  | symbol s => exact hout0
  | placeholder p => exact hout0

/-- The source→target half fires exactly as the spec claims: fresh binding,
insertion on success with full placeholder coverage. -/
theorem rule_inserts_src_fires (e : Expr) (tr : Transform) (out : List Expr)
    (hsp : (enumerate_placeholders tr.source).length =
      (phUnion (enumerate_placeholders tr.source) (enumerate_placeholders tr.target)).length)
    (hm : (matchW (matchFuel e tr.source) e tr.source []).1 = true)
    (hph : match_placeholders (matchW (matchFuel e tr.source) e tr.source []).2
      (phUnion (enumerate_placeholders tr.source) (enumerate_placeholders tr.target)) = true) :
    containsEqv (rule_inserts e tr out)
      (apply_transform_r e tr.target (matchW (matchFuel e tr.source) e tr.source []).2)
      = true := by
  have hstep1 :
      containsEqv (if (enumerate_placeholders tr.source).length =
          (phUnion (enumerate_placeholders tr.source) (enumerate_placeholders tr.target)).length
        then
          (if (matchW (matchFuel e tr.source) e tr.source []).1 &&
              match_placeholders (matchW (matchFuel e tr.source) e tr.source []).2
                (phUnion (enumerate_placeholders tr.source) (enumerate_placeholders tr.target))
          then (setInsert (apply_transform_r e tr.target
                  (matchW (matchFuel e tr.source) e tr.source []).2) out,
                (matchW (matchFuel e tr.source) e tr.source []).2)
          else (out, (matchW (matchFuel e tr.source) e tr.source []).2))
        else (out, ([] : Binding))).1
        (apply_transform_r e tr.target (matchW (matchFuel e tr.source) e tr.source []).2)
        = true := by
    rw [if_pos hsp, if_pos ((Bool.and_eq_true _ _).mpr ⟨hm, hph⟩)]
    exact containsEqv_setInsert _ _
  exact tgt_dir_mono e tr _ _ hstep1

/-- The target→source half made present, stated for an arbitrary intermediate
pair. -/
theorem tgt_dir_fires (e : Expr) (tr : Transform) (pr : List Expr × Binding)
    (htp : (enumerate_placeholders tr.target).length =
      (phUnion (enumerate_placeholders tr.source) (enumerate_placeholders tr.target)).length)
    (hm2 : (matchW (matchFuel e tr.target) e tr.target pr.2).1 = true)
    (hph2 : match_placeholders (matchW (matchFuel e tr.target) e tr.target pr.2).2
      (phUnion (enumerate_placeholders tr.source) (enumerate_placeholders tr.target)) = true) :
    containsEqv (if (enumerate_placeholders tr.target).length =
        (phUnion (enumerate_placeholders tr.source) (enumerate_placeholders tr.target)).length
      then
        (if (matchW (matchFuel e tr.target) e tr.target pr.2).1 &&
            match_placeholders (matchW (matchFuel e tr.target) e tr.target pr.2).2
              (phUnion (enumerate_placeholders tr.source) (enumerate_placeholders tr.target))
        then setInsert (apply_transform_r e tr.source
              (matchW (matchFuel e tr.target) e tr.target pr.2).2) pr.1
        else pr.1)
      else pr.1)
      (apply_transform_r e tr.source (matchW (matchFuel e tr.target) e tr.target pr.2).2)
      = true := by
  rw [if_pos htp, if_pos ((Bool.and_eq_true _ _).mpr ⟨hm2, hph2⟩)]
  exact containsEqv_setInsert _ _

/-- The target→source half fires from the binding the source direction left
behind (empty only when that direction was skipped or its match failed). -/
theorem rule_inserts_tgt_fires (e : Expr) (tr : Transform) (out : List Expr) (b1 : Binding)
    (hb1 : b1 = if (enumerate_placeholders tr.source).length =
        (phUnion (enumerate_placeholders tr.source) (enumerate_placeholders tr.target)).length
      then (matchW (matchFuel e tr.source) e tr.source []).2 else [])
    (htp : (enumerate_placeholders tr.target).length =
      (phUnion (enumerate_placeholders tr.source) (enumerate_placeholders tr.target)).length)
    (hm2 : (matchW (matchFuel e tr.target) e tr.target b1).1 = true)
    (hph2 : match_placeholders (matchW (matchFuel e tr.target) e tr.target b1).2
      (phUnion (enumerate_placeholders tr.source) (enumerate_placeholders tr.target)) = true) :
    containsEqv (rule_inserts e tr out)
      (apply_transform_r e tr.source (matchW (matchFuel e tr.target) e tr.target b1).2)
      = true := by
  subst hb1
  have hstep2 :
      (if (enumerate_placeholders tr.source).length =
          (phUnion (enumerate_placeholders tr.source) (enumerate_placeholders tr.target)).length
        then
          (if (matchW (matchFuel e tr.source) e tr.source []).1 &&
              match_placeholders (matchW (matchFuel e tr.source) e tr.source []).2
                (phUnion (enumerate_placeholders tr.source) (enumerate_placeholders tr.target))
          then (setInsert (apply_transform_r e tr.target
                  (matchW (matchFuel e tr.source) e tr.source []).2) out,
                (matchW (matchFuel e tr.source) e tr.source []).2)
          else (out, (matchW (matchFuel e tr.source) e tr.source []).2))
        else (out, ([] : Binding))).2 =
      (if (enumerate_placeholders tr.source).length =
          (phUnion (enumerate_placeholders tr.source) (enumerate_placeholders tr.target)).length
        then (matchW (matchFuel e tr.source) e tr.source []).2 else []) := by
    by_cases hsp : (enumerate_placeholders tr.source).length =
        (phUnion (enumerate_placeholders tr.source) (enumerate_placeholders tr.target)).length
    · rw [if_pos hsp, if_pos hsp]
      split
      · rfl
      · rfl
    · rw [if_neg hsp, if_neg hsp]
  rw [← hstep2] at hm2 hph2 ⊢
  exact tgt_dir_fires e tr _ htp hm2 hph2

/-- C2: in `neighbors(e)`, for every table rule `(s, t)` whose source
placeholder-set equals the union `U` of both sides' placeholder-sets, matching
`s` against `e` is attempted with a fresh (empty) binding `β`, and
`apply(t, β)` is made present when the match succeeds with `β` covering `U` —
this direction is exactly as the spec claims.  The target→source direction,
however, is NOT attempted with its own fresh binding: the C++ declares
`expr_placeholders` once per rule (expression.cpp 538), so the target-direction
match starts from `b1`, the binding committed by the source-direction `match`
wrapper (empty only when that direction was skipped or its match failed).
Both directions may still fire in one and the same call (see the witness,
where the input's symmetry makes the carried-over binding consistent). -/
theorem C2_rule_directions (vp : Value → Value → Value) (e : Expr) (tr : Transform)
    (htr : tr ∈ transforms) (b1 : Binding)
    (hb1 : b1 = if (enumerate_placeholders tr.source).length =
        (phUnion (enumerate_placeholders tr.source) (enumerate_placeholders tr.target)).length
      then (matchW (matchFuel e tr.source) e tr.source []).2 else []) :
    ((enumerate_placeholders tr.source).length =
        (phUnion (enumerate_placeholders tr.source) (enumerate_placeholders tr.target)).length →
      (matchW (matchFuel e tr.source) e tr.source []).1 = true →
      match_placeholders (matchW (matchFuel e tr.source) e tr.source []).2
        (phUnion (enumerate_placeholders tr.source) (enumerate_placeholders tr.target)) = true →
      containsEqv (enumerate_transforms vp e)
        (apply_transform_r e tr.target (matchW (matchFuel e tr.source) e tr.source []).2)
        = true) ∧
    ((enumerate_placeholders tr.target).length =
        (phUnion (enumerate_placeholders tr.source) (enumerate_placeholders tr.target)).length →
      (matchW (matchFuel e tr.target) e tr.target b1).1 = true →
      match_placeholders (matchW (matchFuel e tr.target) e tr.target b1).2
        (phUnion (enumerate_placeholders tr.source) (enumerate_placeholders tr.target)) = true →
      containsEqv (enumerate_transforms vp e)
        (apply_transform_r e tr.source (matchW (matchFuel e tr.target) e tr.target b1).2)
        = true) := by
  constructor
  · intro hsp hm hph
    exact rule_fires_in_neighbors vp e tr htr _
      (fun acc => rule_inserts_src_fires e tr acc hsp hm hph)
  · intro htp hm2 hph2
    exact rule_fires_in_neighbors vp e tr htr _
      (fun acc => rule_inserts_tgt_fires e tr acc b1 hb1 htp hm2 hph2)

/-- Counterexample to C2 as stated: for the associativity rule
`(x + y) + z = x + (y + z)` and the input `(p + q) + (r + s)`, the
target→source direction with its own fresh binding would match (binding
`x ↦ p + q, y ↦ r, z ↦ s`, covering the union) and insert
`((p + q) + r) + s`; but the code reuses the binding committed by the
source direction (`x ↦ p, y ↦ q, z ↦ r + s`), under which the target match
fails, so the predicted element is absent from the neighbor set. -/
theorem C2_counterexample :
    (Transform.mk
        (.op .sum (.op .sum (.placeholder 23) (.placeholder 24)) (.placeholder 25))
        (.op .sum (.placeholder 23) (.op .sum (.placeholder 24) (.placeholder 25))))
      ∈ transforms ∧
    (enumerate_placeholders
        (Expr.op .sum (.placeholder 23) (.op .sum (.placeholder 24) (.placeholder 25)))).length =
      (phUnion
        (enumerate_placeholders
          (Expr.op .sum (.op .sum (.placeholder 23) (.placeholder 24)) (.placeholder 25)))
        (enumerate_placeholders
          (Expr.op .sum (.placeholder 23) (.op .sum (.placeholder 24) (.placeholder 25))))).length ∧
    (matchW (matchFuel
        (Expr.op .sum (.op .sum (.symbol ['p']) (.symbol ['q']))
          (.op .sum (.symbol ['r']) (.symbol ['s'])))
        (Expr.op .sum (.placeholder 23) (.op .sum (.placeholder 24) (.placeholder 25))))
      (Expr.op .sum (.op .sum (.symbol ['p']) (.symbol ['q']))
        (.op .sum (.symbol ['r']) (.symbol ['s'])))
      (Expr.op .sum (.placeholder 23) (.op .sum (.placeholder 24) (.placeholder 25))) []).1
      = true ∧
    match_placeholders
      (matchW (matchFuel
          (Expr.op .sum (.op .sum (.symbol ['p']) (.symbol ['q']))
            (.op .sum (.symbol ['r']) (.symbol ['s'])))
          (Expr.op .sum (.placeholder 23) (.op .sum (.placeholder 24) (.placeholder 25))))
        (Expr.op .sum (.op .sum (.symbol ['p']) (.symbol ['q']))
          (.op .sum (.symbol ['r']) (.symbol ['s'])))
        (Expr.op .sum (.placeholder 23) (.op .sum (.placeholder 24) (.placeholder 25))) []).2
      (phUnion
        (enumerate_placeholders
          (Expr.op .sum (.op .sum (.placeholder 23) (.placeholder 24)) (.placeholder 25)))
        (enumerate_placeholders
          (Expr.op .sum (.placeholder 23) (.op .sum (.placeholder 24) (.placeholder 25)))))
      = true ∧
    containsEqv
      (enumerate_transforms vpowNan
        (Expr.op .sum (.op .sum (.symbol ['p']) (.symbol ['q']))
          (.op .sum (.symbol ['r']) (.symbol ['s']))))
      (apply_transform_r
        (Expr.op .sum (.op .sum (.symbol ['p']) (.symbol ['q']))
          (.op .sum (.symbol ['r']) (.symbol ['s'])))
        (Expr.op .sum (.op .sum (.placeholder 23) (.placeholder 24)) (.placeholder 25))
        (matchW (matchFuel
            (Expr.op .sum (.op .sum (.symbol ['p']) (.symbol ['q']))
              (.op .sum (.symbol ['r']) (.symbol ['s'])))
            (Expr.op .sum (.placeholder 23) (.op .sum (.placeholder 24) (.placeholder 25))))
          (Expr.op .sum (.op .sum (.symbol ['p']) (.symbol ['q']))
            (.op .sum (.symbol ['r']) (.symbol ['s'])))
          (Expr.op .sum (.placeholder 23) (.op .sum (.placeholder 24) (.placeholder 25))) []).2)
      = false :=
  ⟨by decide, by decide, by decide, by decide, by decide⟩

/-- Witness for C2 on the symmetric input `u + u` with the commutativity rule
`x + y = y + x`: the source direction fires from a fresh binding, and the
target direction fires from the carried-over binding
`x ↦ u, y ↦ u` — both directions insert in one and the same call. -/
theorem C2_witness :
    containsEqv (enumerate_transforms vpowNan (.op .sum (.symbol ['u']) (.symbol ['u'])))
      (apply_transform_r (.op .sum (.symbol ['u']) (.symbol ['u']))
        (.op .sum (.placeholder 24) (.placeholder 23))
        (matchW (matchFuel (Expr.op .sum (.symbol ['u']) (.symbol ['u']))
            (.op .sum (.placeholder 23) (.placeholder 24)))
          (.op .sum (.symbol ['u']) (.symbol ['u']))
          (.op .sum (.placeholder 23) (.placeholder 24)) []).2) = true ∧
    containsEqv (enumerate_transforms vpowNan (.op .sum (.symbol ['u']) (.symbol ['u'])))
      (apply_transform_r (.op .sum (.symbol ['u']) (.symbol ['u']))
        (.op .sum (.placeholder 23) (.placeholder 24))
        (matchW (matchFuel (Expr.op .sum (.symbol ['u']) (.symbol ['u']))
            (.op .sum (.placeholder 24) (.placeholder 23)))
          (.op .sum (.symbol ['u']) (.symbol ['u']))
          (.op .sum (.placeholder 24) (.placeholder 23))
          [(24, .symbol ['u']), (23, .symbol ['u'])]).2) = true :=
  ⟨(C2_rule_directions vpowNan (.op .sum (.symbol ['u']) (.symbol ['u']))
      (Transform.mk (.op .sum (.placeholder 23) (.placeholder 24))
        (.op .sum (.placeholder 24) (.placeholder 23)))
      (by decide) [(24, .symbol ['u']), (23, .symbol ['u'])] (by decide)).1
    (by decide) (by decide) (by decide),
   (C2_rule_directions vpowNan (.op .sum (.symbol ['u']) (.symbol ['u']))
      (Transform.mk (.op .sum (.placeholder 23) (.placeholder 24))
        (.op .sum (.placeholder 24) (.placeholder 23)))
      (by decide) [(24, .symbol ['u']), (23, .symbol ['u'])] (by decide)).2
    (by decide) (by decide) (by decide)⟩

/-!
## Claim C7: the expression comparison as a total order
-/

/-- Sign analysis of the two-level lexicographic if (strict case). -/
theorem outer_lex (m n : Nat) (z : Int) :
    ((if m < n then (-1 : Int) else if m = n then z else 1) < 0) ↔
      (m < n ∨ (m = n ∧ z < 0)) := by
  split_ifs <;> omega

/-- Sign analysis of the two-level lexicographic if (reverse strict case). -/
theorem outer_lex_gt (m n : Nat) (z : Int) :
    (0 < (if m < n then (-1 : Int) else if m = n then z else 1)) ↔
      (n < m ∨ (m = n ∧ 0 < z)) := by
  split_ifs <;> omega

/-- Sign analysis of the two-level lexicographic if (zero case). -/
theorem outer_lex_eq (m n : Nat) (z : Int) :
    ((if m < n then (-1 : Int) else if m = n then z else 1) = 0) ↔
      (m = n ∧ z = 0) := by
  split_ifs <;> first | omega | (rw [false_iff]; omega)

/-- Sign analysis of the inner operand if (strict case). -/
theorem inner_lex (x y : Int) :
    ((if x < 0 then (-1 : Int) else if x = 0 then y else 1) < 0) ↔
      (x < 0 ∨ (x = 0 ∧ y < 0)) := by
  split_ifs <;> omega

/-- Sign analysis of the inner operand if (reverse strict case). -/
theorem inner_lex_gt (x y : Int) :
    (0 < (if x < 0 then (-1 : Int) else if x = 0 then y else 1)) ↔
      (0 < x ∨ (x = 0 ∧ 0 < y)) := by
  split_ifs <;> omega

/-- Sign analysis of the inner operand if (zero case). -/
theorem inner_lex_eq (x y : Int) :
    ((if x < 0 then (-1 : Int) else if x = 0 then y else 1) = 0) ↔
      (x = 0 ∧ y = 0) := by
  split_ifs <;> first | omega | (rw [false_iff]; omega)

/-- The rational three-way comparison is negative exactly on `<`. -/
theorem cmpQ_lt_iff (p q : ℚ) :
    ((if p < q then (-1 : Int) else if p = q then 0 else 1) < 0) ↔ p < q := by
  split_ifs with h1 h2
  · exact iff_of_true (by omega) h1
  · exact iff_of_false (by omega) (fun hc => by rw [h2] at hc; exact lt_irrefl q hc)
  · exact iff_of_false (by omega) h1

/-- The rational three-way comparison is positive exactly on `>`. -/
theorem cmpQ_gt_iff (p q : ℚ) :
    (0 < (if p < q then (-1 : Int) else if p = q then 0 else 1)) ↔ q < p := by
  split_ifs with h1 h2
  · exact iff_of_false (by omega) (lt_asymm h1)
  · exact iff_of_false (by omega) (fun hc => by rw [h2] at hc; exact lt_irrefl q hc)
  · refine iff_of_true (by omega) ?_
    rcases lt_trichotomy p q with h | h | h
    · exact absurd h h1
    · exact absurd h h2
    · exact h

/-- The rational three-way comparison is zero exactly on `=`. -/
theorem cmpQ_eq_iff (p q : ℚ) :
    ((if p < q then (-1 : Int) else if p = q then 0 else 1) = 0) ↔ p = q := by
  split_ifs with h1 h2
  · rw [false_iff]
    intro he
    rw [he] at h1
    exact lt_irrefl q h1
  · exact iff_of_true (by trivial) h2
  · exact iff_of_false (by omega) h2

/-- `compare` on two function leaves is the tag difference. -/
theorem cmpE_fn (f g : Fn) : cmpE (.fn f) (.fn g) = (fnIdx f : Int) - fnIdx g := rfl

/-- `compare` on two constant leaves is the tag difference. -/
theorem cmpE_const (c d : ConstKind) :
    cmpE (.const c) (.const d) = (constIdx c : Int) - constIdx d := rfl

/-- `compare` on two placeholder leaves is the tag difference. -/
theorem cmpE_ph (p q : Nat) : cmpE (.placeholder p) (.placeholder q) = (p : Int) - q := rfl

/-- `compare` on two symbol leaves is the string comparison. -/
theorem cmpE_sym (s t : List Char) : cmpE (.symbol s) (.symbol t) = scmp s t := rfl

/-- `compare` on two operator nodes: kind, then lhs, then rhs. -/
theorem cmpE_op (k1 k2 : OpType) (l1 r1 l2 r2 : Expr) :
    cmpE (.op k1 l1 r1) (.op k2 l2 r2) =
      (if kindIdx k1 < kindIdx k2 then -1
       else if kindIdx k1 = kindIdx k2 then
         (if cmpE l1 l2 < 0 then -1 else if cmpE l1 l2 = 0 then cmpE r1 r2 else 1)
       else 1) := rfl

/-- `compare` on two finite value leaves is the rational three-way
comparison (the subtraction is exact and its sign is tested). -/
theorem cmpE_value_fin (p q : ℚ) :
    cmpE (.value (.fin p)) (.value (.fin q)) =
      if p < q then -1 else if p = q then 0 else 1 := by
  have hvlt : (vltB (vsub (.fin p) (.fin q)) (.fin 0) = true) ↔ p < q := by
    show (Rat.blt (qsub p q) 0 = true) ↔ p < q
    rw [blt_true_iff, qsub_eq, sub_neg]
  have hveq : (veqB (vsub (.fin p) (.fin q)) (.fin 0) = true) ↔ p = q := by
    show (decide (qsub p q = 0) = true) ↔ p = q
    rw [decide_eq_true_eq, qsub_eq, sub_eq_zero]
  have h0 : cmpE (.value (.fin p)) (.value (.fin q)) =
      (if vltB (vsub (.fin p) (.fin q)) (.fin 0) then (-1 : Int)
       else if veqB (vsub (.fin p) (.fin q)) (.fin 0) then 0 else 1) := rfl
  rw [h0]
  rcases lt_trichotomy p q with h | h | h
  · rw [if_pos (hvlt.mpr h), if_pos h]
  · have h1 : ¬ vltB (vsub (.fin p) (.fin q)) (.fin 0) = true :=
      fun hc => absurd (hvlt.mp hc) (by rw [h]; exact lt_irrefl q)
    rw [if_neg h1, if_pos (hveq.mpr h), if_neg (by rw [h]; exact lt_irrefl q), if_pos h]
  · have hneq : p ≠ q := by intro he; rw [he] at h; exact lt_irrefl q h
    have h1 : ¬ vltB (vsub (.fin p) (.fin q)) (.fin 0) = true :=
      fun hc => absurd (hvlt.mp hc) (lt_asymm h)
    rw [if_neg h1, if_neg (fun hc => hneq (hveq.mp hc)), if_neg (lt_asymm h), if_neg hneq]

/-- Character-string comparison is antisymmetric. -/
theorem scmp_swap : ∀ (s t : List Char),
    (scmp s t < 0 ↔ 0 < scmp t s) ∧ (scmp s t = 0 ↔ scmp t s = 0) := by
  intro s
  induction s with
  | nil =>
      intro t
      cases t <;> refine ⟨?_, ?_⟩ <;> simp only [scmp] <;> omega
  | cons a as ih =>
      intro t
      cases t with
      | nil => refine ⟨?_, ?_⟩ <;> simp only [scmp] <;> omega
      | cons b bs =>
          refine ⟨?_, ?_⟩ <;> simp only [scmp] <;> split_ifs <;>
            first
            | omega
            | exact Iff.rfl
            | (rw [false_iff]; omega)
            | (rw [iff_false]; omega)
            | exact (ih bs).1
            | exact (ih bs).2

/-- Character-string comparison composes transitively in all four
strict/equal combinations. -/
theorem scmp_quad : ∀ (s t u : List Char),
    (scmp s t < 0 → scmp t u < 0 → scmp s u < 0) ∧
    (scmp s t = 0 → scmp t u < 0 → scmp s u < 0) ∧
    (scmp s t < 0 → scmp t u = 0 → scmp s u < 0) ∧
    (scmp s t = 0 → scmp t u = 0 → scmp s u = 0) := by
  intro s
  induction s with
  | nil =>
      intro t u
      cases t <;> cases u <;> refine ⟨?_, ?_, ?_, ?_⟩ <;> intro h1 h2 <;>
        simp only [scmp] at h1 h2 ⊢ <;> omega
  | cons a as ih =>
      intro t u
      cases t with
      | nil =>
          cases u <;> refine ⟨?_, ?_, ?_, ?_⟩ <;> intro h1 h2 <;>
            simp only [scmp] at h1 h2 ⊢ <;> omega
      | cons b bs =>
          cases u with
          | nil =>
              refine ⟨?_, ?_, ?_, ?_⟩ <;> intro h1 h2 <;>
                simp only [scmp] at h1 h2 ⊢ <;> omega
          | cons c cs =>
              refine ⟨?_, ?_, ?_, ?_⟩ <;> intro h1 h2 <;>
                simp only [scmp] at h1 h2 ⊢ <;> split_ifs at h1 h2 ⊢ <;>
                first
                | omega
                | exact h1.elim
                | exact h2.elim
                | exact (ih bs cs).1 h1 h2
                | exact (ih bs cs).2.1 h1 h2
                | exact (ih bs cs).2.2.1 h1 h2
                | exact (ih bs cs).2.2.2 h1 h2

set_option maxHeartbeats 1000000 in
/-- Antisymmetry of `compare` on expressions whose value leaves are all
finite. -/
theorem cmpE_swap_aux : ∀ (a b : Expr), finiteVals a = true → finiteVals b = true →
    ((cmpE a b < 0 ↔ 0 < cmpE b a) ∧ (cmpE a b = 0 ↔ cmpE b a = 0)) := by
  intro a
  induction a with
  | empty =>
      intro b ha hb
      cases b <;> exact ⟨of_decide_eq_true rfl, of_decide_eq_true rfl⟩
  | op k l r ihl ihr =>
      intro b ha hb
      cases b <;> try (exact ⟨of_decide_eq_true rfl, of_decide_eq_true rfl⟩)
      rename_i k2 l2 r2
      obtain ⟨hfl, hfr⟩ := (Bool.and_eq_true _ _).mp ha
      obtain ⟨hfl2, hfr2⟩ := (Bool.and_eq_true _ _).mp hb
      obtain ⟨hL1, hL2⟩ := ihl l2 hfl hfl2
      obtain ⟨hR1, hR2⟩ := ihr r2 hfr hfr2
      simp only [cmpE_op, outer_lex, inner_lex, outer_lex_gt, inner_lex_gt,
        outer_lex_eq, inner_lex_eq]
      omega
  | fn f =>
      intro b ha hb
      cases b <;> try (exact ⟨of_decide_eq_true rfl, of_decide_eq_true rfl⟩)
      rename_i g
      simp only [cmpE_fn]
      omega
  | const c =>
      intro b ha hb
      cases b <;> try (exact ⟨of_decide_eq_true rfl, of_decide_eq_true rfl⟩)
      rename_i d
      simp only [cmpE_const]
      omega
  | value v =>
      intro b ha hb
      cases b <;> try (exact ⟨of_decide_eq_true rfl, of_decide_eq_true rfl⟩)
      rename_i v2
      cases v with
      | fin p =>
          cases v2 with
          | fin q =>
              simp only [cmpE_value_fin, cmpQ_lt_iff, cmpQ_gt_iff, cmpQ_eq_iff]
              exact ⟨by trivial, eq_comm⟩
          | inf s2 => exact absurd hb (of_decide_eq_false rfl)
          | nan => exact absurd hb (of_decide_eq_false rfl)
      | inf s2 => exact absurd ha (of_decide_eq_false rfl)
      | nan => exact absurd ha (of_decide_eq_false rfl)
  | symbol s =>
      intro b ha hb
      cases b <;> try (exact ⟨of_decide_eq_true rfl, of_decide_eq_true rfl⟩)
      rename_i t
      simp only [cmpE_sym]
      exact scmp_swap s t
  | placeholder p =>
      intro b ha hb
      cases b <;> try (exact ⟨of_decide_eq_true rfl, of_decide_eq_true rfl⟩)
      rename_i q
      simp only [cmpE_ph]
      omega

set_option maxHeartbeats 4000000 in
/-- Transitivity of `compare` (all four strict/equal combinations) on
expressions whose value leaves are all finite. -/
theorem cmpE_trans_aux : ∀ (a b c : Expr), finiteVals a = true → finiteVals b = true →
    finiteVals c = true →
    ((cmpE a b < 0 → cmpE b c < 0 → cmpE a c < 0) ∧
     (cmpE a b = 0 → cmpE b c < 0 → cmpE a c < 0) ∧
     (cmpE a b < 0 → cmpE b c = 0 → cmpE a c < 0) ∧
     (cmpE a b = 0 → cmpE b c = 0 → cmpE a c = 0)) := by
  intro a
  induction a with
  | empty =>
      intro b c ha hb hc
      cases b <;> cases c <;> refine ⟨?_, ?_, ?_, ?_⟩ <;> intro h1 h2 <;>
        first
        | exact absurd h1 (of_decide_eq_false rfl)
        | exact absurd h2 (of_decide_eq_false rfl)
        | exact of_decide_eq_true rfl
  | op k l r ihl ihr =>
      intro b c ha hb hc
      cases b <;> cases c <;>
        try (refine ⟨?_, ?_, ?_, ?_⟩ <;> intro h1 h2 <;>
          first
          | exact absurd h1 (of_decide_eq_false rfl)
          | exact absurd h2 (of_decide_eq_false rfl)
          | exact of_decide_eq_true rfl)
      rename_i k2 l2 r2 k3 l3 r3
      obtain ⟨hfl, hfr⟩ := (Bool.and_eq_true _ _).mp ha
      obtain ⟨hfl2, hfr2⟩ := (Bool.and_eq_true _ _).mp hb
      obtain ⟨hfl3, hfr3⟩ := (Bool.and_eq_true _ _).mp hc
      obtain ⟨HL1, HL2, HL3, HL4⟩ := ihl l2 l3 hfl hfl2 hfl3
      obtain ⟨HR1, HR2, HR3, HR4⟩ := ihr r2 r3 hfr hfr2 hfr3
      refine ⟨?_, ?_, ?_, ?_⟩ <;> intro h1 h2 <;>
        simp only [cmpE_op, outer_lex, inner_lex, outer_lex_eq, inner_lex_eq]
          at h1 h2 ⊢ <;>
        omega
  | fn f =>
      intro b c ha hb hc
      cases b <;> cases c <;>
        try (refine ⟨?_, ?_, ?_, ?_⟩ <;> intro h1 h2 <;>
          first
          | exact absurd h1 (of_decide_eq_false rfl)
          | exact absurd h2 (of_decide_eq_false rfl)
          | exact of_decide_eq_true rfl)
      rename_i g g2
      refine ⟨?_, ?_, ?_, ?_⟩ <;> intro h1 h2 <;>
        simp only [cmpE_fn] at h1 h2 ⊢ <;> omega
  | const c0 =>
      intro b c ha hb hc
      cases b <;> cases c <;>
        try (refine ⟨?_, ?_, ?_, ?_⟩ <;> intro h1 h2 <;>
          first
          | exact absurd h1 (of_decide_eq_false rfl)
          | exact absurd h2 (of_decide_eq_false rfl)
          | exact of_decide_eq_true rfl)
      rename_i d d2
      refine ⟨?_, ?_, ?_, ?_⟩ <;> intro h1 h2 <;>
        simp only [cmpE_const] at h1 h2 ⊢ <;> omega
  | value v =>
      intro b c ha hb hc
      cases b <;> cases c <;>
        try (refine ⟨?_, ?_, ?_, ?_⟩ <;> intro h1 h2 <;>
          first
          | exact absurd h1 (of_decide_eq_false rfl)
          | exact absurd h2 (of_decide_eq_false rfl)
          | exact of_decide_eq_true rfl)
      rename_i v2 v3
      cases v with
      | fin p =>
          cases v2 with
          | fin q =>
              cases v3 with
              | fin w =>
                  refine ⟨?_, ?_, ?_, ?_⟩ <;> intro h1 h2 <;>
                    simp only [cmpE_value_fin, cmpQ_lt_iff, cmpQ_eq_iff] at h1 h2 ⊢ <;>
                    linarith
              | inf s2 => exact absurd hc (of_decide_eq_false rfl)
              | nan => exact absurd hc (of_decide_eq_false rfl)
          | inf s2 => exact absurd hb (of_decide_eq_false rfl)
          | nan => exact absurd hb (of_decide_eq_false rfl)
      | inf s2 => exact absurd ha (of_decide_eq_false rfl)
      | nan => exact absurd ha (of_decide_eq_false rfl)
  | symbol s =>
      intro b c ha hb hc
      cases b <;> cases c <;>
        try (refine ⟨?_, ?_, ?_, ?_⟩ <;> intro h1 h2 <;>
          first
          | exact absurd h1 (of_decide_eq_false rfl)
          | exact absurd h2 (of_decide_eq_false rfl)
          | exact of_decide_eq_true rfl)
      rename_i t u
      obtain ⟨S1, S2, S3, S4⟩ := scmp_quad s t u
      refine ⟨?_, ?_, ?_, ?_⟩ <;> intro h1 h2 <;>
        simp only [cmpE_sym] at h1 h2 ⊢ <;> omega
  | placeholder p =>
      intro b c ha hb hc
      cases b <;> cases c <;>
        try (refine ⟨?_, ?_, ?_, ?_⟩ <;> intro h1 h2 <;>
          first
          | exact absurd h1 (of_decide_eq_false rfl)
          | exact absurd h2 (of_decide_eq_false rfl)
          | exact of_decide_eq_true rfl)
      rename_i q q2
      refine ⟨?_, ?_, ?_, ?_⟩ <;> intro h1 h2 <;>
        simp only [cmpE_ph] at h1 h2 ⊢ <;> omega

/-- Counterexample to C7 as stated: over ALL expressions the comparison is
not antisymmetric — `compare(Value(NaN), Value(NaN))` is `1` in both
argument orders (the subtraction yields NaN, and both sign tests are false),
so "compare(a,b) < 0 iff compare(b,a) > 0" fails at `a = b = Value(NaN)`. -/
theorem C7_counterexample :
    cmpE (.value .nan) (.value .nan) = 1 ∧
    ¬((cmpE (.value .nan) (.value .nan) < 0) ↔ (0 < cmpE (.value .nan) (.value .nan))) :=
  ⟨by decide, by decide⟩

/-- C7 (amended): on expressions all of whose value leaves are finite — NaN
and infinite leaves break even reflexive antisymmetry, see the
counterexample — `compare` is a total order: antisymmetric in both the strict
and the zero form, transitive in the strict and the zero form, and
trichotomous (exactly one of `compare(a,b) < 0`, `compare(a,b) = 0`,
`compare(b,a) < 0` holds). -/
theorem C7_total_order (a b c : Expr) (ha : finiteVals a = true)
    (hb : finiteVals b = true) (hc : finiteVals c = true) :
    (cmpE a b < 0 ↔ 0 < cmpE b a) ∧
    (cmpE a b = 0 ↔ cmpE b a = 0) ∧
    (cmpE a b < 0 → cmpE b c < 0 → cmpE a c < 0) ∧
    (cmpE a b = 0 → cmpE b c = 0 → cmpE a c = 0) ∧
    (cmpE a b < 0 ∨ cmpE a b = 0 ∨ cmpE b a < 0) ∧
    ¬(cmpE a b < 0 ∧ cmpE a b = 0) ∧
    ¬(cmpE a b < 0 ∧ cmpE b a < 0) ∧
    ¬(cmpE a b = 0 ∧ cmpE b a < 0) := by
  obtain ⟨hs1, hs2⟩ := cmpE_swap_aux a b ha hb
  refine ⟨hs1, hs2, (cmpE_trans_aux a b c ha hb hc).1,
    (cmpE_trans_aux a b c ha hb hc).2.2.2, ?_, ?_, ?_, ?_⟩
  · rcases lt_trichotomy (cmpE a b) 0 with h | h | h
    · exact Or.inl h
    · exact Or.inr (Or.inl h)
    · exact Or.inr (Or.inr ((cmpE_swap_aux b a hb ha).1.mpr h))
  · rintro ⟨h1, h2⟩
    omega
  · rintro ⟨h1, h2⟩
    have := hs1.mp h1
    omega
  · rintro ⟨h1, h2⟩
    have := hs2.mp h1
    omega

/-- Witness for C7 (amended) at `a = Value(1)`, `b = u`, `c = u + 1`: all
finite-valued, and the antisymmetry instance evaluates. -/
theorem C7_witness :
    finiteVals (.value (.fin 1)) = true ∧
    ((cmpE (.value (.fin 1)) (.symbol ['u']) < 0) ↔
      (0 < cmpE (.symbol ['u']) (.value (.fin 1)))) :=
  ⟨by decide,
   (C7_total_order (.value (.fin 1)) (.symbol ['u'])
     (.op .sum (.symbol ['u']) (.value (.fin 1)))
     (by decide) (by decide) (by decide)).1⟩

/-!
## Claim C8: round trip of substitution followed by matching
-/

/-- Every expression has at least one node. -/
theorem sizeE_pos (e : Expr) : 1 ≤ sizeE e := by
  cases e <;> simp only [sizeE] <;> omega

/-- A bound expression weighs no more than the whole binding range. -/
theorem blookup_weight : ∀ (β : Binding) (p : Nat) (b : Expr),
    blookup β p = some b → sizeE b ≤ bindingWeight β := by
  intro β
  induction β with
  | nil => intro p b h; simp [blookup] at h
  | cons kv rest ih =>
      intro p b h
      rw [blookup] at h
      rw [bindingWeight]
      split at h
      · injection h with h
        subst h
        omega
      · have := ih p b h
        omega

/-- Every rule source in the table is free of NaN value leaves. -/
theorem transforms_nanFree : transforms.all (fun tr => nanFree tr.source) = true := by decide

/-- A NaN-free placeholder-free expression matches itself without touching
the binding. -/
theorem match_r_self : ∀ (e : Expr) (β : Binding) (fuel : Nat), noPh e = true →
    nanFree e = true → sizeE e ≤ fuel → match_r fuel e e β = (true, β) := by
  intro e
  induction e with
  | op k l r ihl ihr =>
      intro β fuel hph hnf hsz
      obtain ⟨hp1, hp2⟩ := (Bool.and_eq_true _ _).mp hph
      obtain ⟨hn1, hn2⟩ := (Bool.and_eq_true _ _).mp hnf
      have hs : sizeE (Expr.op k l r) = 1 + sizeE l + sizeE r := rfl
      have hl1 := sizeE_pos l
      have hr1 := sizeE_pos r
      cases fuel with
      | zero => omega
      | succ f =>
          have ihl2 : match_r f l l β = (true, β) := ihl β f hp1 hn1 (by omega)
          have ihr2 : match_r f r r β = (true, β) := ihr β f hp2 hn2 (by omega)
          simp [match_r, ihl2, ihr2]
  | value v =>
      intro β fuel _ hnf hsz
      have hs : sizeE (Expr.value v) = 1 := rfl
      cases fuel with
      | zero => omega
      | succ f =>
          cases v with
          | fin q => simp [match_r, veqB]
          | inf s2 => simp [match_r, veqB]
          | nan => exact absurd hnf (by decide)
  | placeholder p =>
      intro β fuel hph _ _
      exact absurd hph (of_decide_eq_false rfl)
  | empty =>
      intro β fuel _ _ hsz
      have hs : sizeE Expr.empty = 1 := rfl
      cases fuel with
      | zero => omega
      | succ f => simp [match_r]
  | fn f2 =>
      intro β fuel _ _ hsz
      have hs : sizeE (Expr.fn f2) = 1 := rfl
      cases fuel with
      | zero => omega
      | succ f => simp [match_r]
  | const c =>
      intro β fuel _ _ hsz
      have hs : sizeE (Expr.const c) = 1 := rfl
      cases fuel with
      | zero => omega
      | succ f => simp [match_r]
  | symbol s =>
      intro β fuel _ _ hsz
      have hs : sizeE (Expr.symbol s) = 1 := rfl
      cases fuel with
      | zero => omega
      | succ f => simp [match_r]

/-- Matching a bound expression against its own placeholder pattern succeeds
(via the lookup-and-recurse branch) without touching the binding. -/
theorem match_r_lookup (p : Nat) (b : Expr) (β : Binding) (f : Nat)
    (hb : blookup β p = some b) (hbph : noPh b = true) (hbnf : nanFree b = true)
    (hsz : sizeE b + 2 ≤ f) :
    match_r f b (.placeholder p) β = (true, β) := by
  cases f with
  | zero => omega
  | succ f1 =>
      cases f1 with
      | zero => omega
      | succ f2 =>
          have hself : match_r f2 b b β = (true, β) :=
            match_r_self b β f2 hbph hbnf (by omega)
          cases b with
          | placeholder q => exact absurd hbph (of_decide_eq_false rfl)
          | op k l r => simp [match_r, hb, hself]
          | empty => simp [match_r, hb, hself]
          | fn f3 => simp [match_r, hb, hself]
          | const c => simp [match_r, hb, hself]
          | value v => simp [match_r, hb, hself]
          | symbol s => simp [match_r, hb, hself]

/-- Core of C8 (amended): substituting a covering, placeholder-free, NaN-free
binding into a NaN-free pattern and matching the result back against the
pattern succeeds and returns the binding unchanged. -/
theorem match_r_round : ∀ (pat e0 : Expr) (β : Binding) (fuel : Nat),
    (∀ kv ∈ β, noPh kv.2 = true ∧ nanFree kv.2 = true) →
    nanFree pat = true →
    (∀ p ∈ enumerate_placeholders pat, (blookup β p).isSome = true) →
    sizeE pat + bindingWeight β + 1 ≤ fuel →
    match_r fuel (apply_transform_r e0 pat β) pat β = (true, β) := by
  intro pat
  induction pat with
  | op k l r ihl ihr =>
      intro e0 β fuel hβ hnf hcov hsz
      obtain ⟨hn1, hn2⟩ := (Bool.and_eq_true _ _).mp hnf
      have hs : sizeE (Expr.op k l r) = 1 + sizeE l + sizeE r := rfl
      have hl1 := sizeE_pos l
      have hr1 := sizeE_pos r
      cases fuel with
      | zero => omega
      | succ f =>
          have ihl2 : match_r f (apply_transform_r e0 l β) l β = (true, β) :=
            ihl e0 β f hβ hn1 (fun p hp => hcov p (ph_mem_op_left hp)) (by omega)
          have ihr2 : match_r f (apply_transform_r e0 r β) r β = (true, β) :=
            ihr e0 β f hβ hn2 (fun p hp => hcov p (ph_mem_op_right hp)) (by omega)
          show match_r (f + 1)
            (.op k (apply_transform_r e0 l β) (apply_transform_r e0 r β))
            (.op k l r) β = (true, β)
          simp [match_r, ihl2, ihr2]
  | placeholder p =>
      intro e0 β fuel hβ _ hcov hsz
      have hmem : p ∈ enumerate_placeholders (.placeholder p) := by
        simp [enumerate_placeholders, placeholder_count_r, phInsert]
      have hp := hcov p hmem
      have hps : sizeE (Expr.placeholder p) = 1 := rfl
      cases hb : blookup β p with
      | none => rw [hb] at hp; simp at hp
      | some b =>
          obtain ⟨hbph, hbnf⟩ := hβ (p, b) (blookup_mem hb)
          have hw : sizeE b ≤ bindingWeight β := blookup_weight β p b hb
          show match_r fuel ((blookup β p).getD .empty) (.placeholder p) β = (true, β)
          rw [hb]
          exact match_r_lookup p b β fuel hb hbph hbnf (by omega)
  | value v =>
      intro e0 β fuel _ hnf _ hsz
      have hps : sizeE (Expr.value v) = 1 := rfl
      cases fuel with
      | zero => omega
      | succ f =>
          cases v with
          | fin q => simp [match_r, apply_transform_r, veqB]
          | inf s2 => simp [match_r, apply_transform_r, veqB]
          | nan => exact absurd hnf (by decide)
  | empty =>
      intro e0 β fuel _ _ _ hsz
      have hps : sizeE Expr.empty = 1 := rfl
      cases fuel with
      | zero => omega
      | succ f => simp [match_r, apply_transform_r]
  | fn f2 =>
      intro e0 β fuel _ _ _ hsz
      have hps : sizeE (Expr.fn f2) = 1 := rfl
      cases fuel with
      | zero => omega
      | succ f => simp [match_r, apply_transform_r]
  | const c =>
      intro e0 β fuel _ _ _ hsz
      have hps : sizeE (Expr.const c) = 1 := rfl
      cases fuel with
      | zero => omega
      | succ f => simp [match_r, apply_transform_r]
  | symbol s =>
      intro e0 β fuel _ _ _ hsz
      have hps : sizeE (Expr.symbol s) = 1 := rfl
      cases fuel with
      | zero => omega
      | succ f => simp [match_r, apply_transform_r]

/-- Counterexample to C8 as stated: for the associativity rule with source
`(x + y) + z` and the binding mapping every source placeholder to the bare
placeholder `0`, the binding's domain covers the source's placeholder set,
yet matching the substituted expression back against the source fails — the
both-placeholder branch of `match_r` (expression.cpp 249-250) compares the
tags `0` and `23` directly without consulting the binding. -/
theorem C8_counterexample :
    ((enumerate_placeholders
        (Expr.op .sum (.op .sum (.placeholder 23) (.placeholder 24)) (.placeholder 25))).all
      (fun p => (blookup
        [(23, Expr.placeholder 0), (24, Expr.placeholder 0), (25, Expr.placeholder 0)]
        p).isSome)) = true ∧
    (Transform.mk
        (.op .sum (.op .sum (.placeholder 23) (.placeholder 24)) (.placeholder 25))
        (.op .sum (.placeholder 23) (.op .sum (.placeholder 24) (.placeholder 25))))
      ∈ transforms ∧
    (matchW 64
      (apply_transform_r .empty
        (Expr.op .sum (.op .sum (.placeholder 23) (.placeholder 24)) (.placeholder 25))
        [(23, Expr.placeholder 0), (24, Expr.placeholder 0), (25, Expr.placeholder 0)])
      (Expr.op .sum (.op .sum (.placeholder 23) (.placeholder 24)) (.placeholder 25))
      [(23, Expr.placeholder 0), (24, Expr.placeholder 0), (25, Expr.placeholder 0)]).1
      = false :=
  ⟨by decide, by decide, by decide⟩

/-- C8 (amended): for every rule `(s, t)` of the table and every binding `β`
whose domain covers the placeholder-set of `s`, whose range is
placeholder-free and NaN-free — the engine's bindings always are; bare
placeholders or NaN values in the range break the round trip, see the
counterexample — and any matcher fuel of at least `size(s) + weight(β) + 1`:
matching `apply(s, β)` back against `s` succeeds, and the resulting binding
is exactly `β` (in particular it extends `β`). -/
theorem C8_match_round_trip (tr : Transform) (htr : tr ∈ transforms) (e0 : Expr)
    (β : Binding) (fuel : Nat)
    (hβ : ∀ kv ∈ β, noPh kv.2 = true ∧ nanFree kv.2 = true)
    (hcov : ∀ p ∈ enumerate_placeholders tr.source, (blookup β p).isSome = true)
    (hfuel : sizeE tr.source + bindingWeight β + 1 ≤ fuel) :
    matchW fuel (apply_transform_r e0 tr.source β) tr.source β = (true, β) := by
  have hall := List.all_eq_true.mp transforms_nanFree
  have hnf : nanFree tr.source = true := hall tr htr
  have h := match_r_round tr.source e0 β fuel hβ hnf hcov hfuel
  simp [matchW, h]

/-- Witness for C8 (amended): the commutativity rule's source `x + y` with
the binding `x ↦ a, y ↦ 2` — substitution gives `a + 2`, and matching it back
returns the same binding. -/
theorem C8_witness :
    matchW 64
      (apply_transform_r .empty (.op .sum (.placeholder 23) (.placeholder 24))
        [(23, Expr.symbol ['a']), (24, Expr.value (.fin 2))])
      (.op .sum (.placeholder 23) (.placeholder 24))
      [(23, Expr.symbol ['a']), (24, Expr.value (.fin 2))] =
      (true, [(23, Expr.symbol ['a']), (24, Expr.value (.fin 2))]) :=
  C8_match_round_trip
    (Transform.mk (.op .sum (.placeholder 23) (.placeholder 24))
      (.op .sum (.placeholder 24) (.placeholder 23)))
    (by decide) .empty
    [(23, Expr.symbol ['a']), (24, Expr.value (.fin 2))] 64
    (by decide) (by decide) (by decide)

end Algebra
